import Mathlib

/-!
Verification of the graph-analysis core of `circular-dependency-hunter`.

The definitions below are a shallow embedding of `src/circular-deps.ts` and
`src/dead-code.ts`.  JavaScript strings are modelled as Lean `String`
(comparison and lowercasing are re-implemented over `List Char` so that all
definitions reduce inside the kernel), JS `Set`/`Map` (which preserve
insertion order) are modelled as lists with set/assoc-map update semantics,
and the `minimatch` glob library — an external dependency of the repository —
is a parameter `minimatch : String → String → Bool` of every function that
filters by glob patterns.  A small concrete glob matcher, modelled from the
spec, is provided for concrete evaluations.
-/

/-- Model of the JS string comparison `a < b` (lexicographic over code
points) as a structurally recursive Bool function. -/
def charListLt : List Char → List Char → Bool
  | [], [] => false
  | [], _ :: _ => true
  | _ :: _, [] => false
  | a :: as, b :: bs => if a < b then true else if b < a then false else charListLt as bs

/-- JS `a < b` on strings. -/
def jsLt (a b : String) : Bool := charListLt a.data b.data

/-- JS `a <= b` on strings (total order, so `a <= b ⇔ ¬ (b < a)`). -/
def jsLe (a b : String) : Bool := !(jsLt b a)

/-- ASCII lower-casing of one character (model of `Char.toLower` /
the ASCII fragment of JS `toLowerCase`). -/
def charToLower (c : Char) : Char :=
  if 'A' ≤ c ∧ c ≤ 'Z' then Char.ofNat (c.toNat + 32) else c

/-- Model of JS `String.prototype.toLowerCase` (ASCII fragment). -/
def jsToLower (s : String) : String := ⟨s.data.map charToLower⟩

/-- Model of JS `s.includes(sub)`: substring containment. -/
def containsSub (s sub : String) : Bool := decide (sub.data <:+: s.data)

/-- Model of JS `a || b` for an optional string `a`: `b` is used when `a`
is absent or empty (the falsy cases for strings). -/
def strOr : Option String → String → String
  | some s, b => if s = "" then b else s
  | none, b => b

/-- Model of JS `Array.prototype.join(sep)` on an array of strings. -/
def joinWith (sep : String) : List String → String
  | [] => ""
  | [a] => a
  | a :: b :: rest => a ++ sep ++ joinWith sep (b :: rest)

/-- Model of JS `Set.add`: append if not already present (JS sets preserve
insertion order). -/
def setAdd (l : List String) (x : String) : List String :=
  if x ∈ l then l else l ++ [x]

/-- Model of JS `Map.set`: update in place if the key is present, else
append (JS maps preserve insertion order). -/
def mapSet (m : List (String × String)) (k v : String) : List (String × String) :=
  if m.any (fun kv => kv.1 == k) then m.map (fun kv => if kv.1 == k then (k, v) else kv)
  else m ++ [(k, v)]

/-- Model of JS `Map.get`. -/
def mapGet (m : List (String × String)) (k : String) : Option String :=
  (m.find? (fun kv => kv.1 == k)).map (fun kv => kv.2)

/-- Model of JS `Array.prototype.indexOf` for a present element.  (JS
returns `-1` when the element is absent; at the only call site below the
element is always on the stack, so the absent case is unreachable.) -/
def jsIndexOf (l : List String) (x : String) : Nat :=
  match l with
  | [] => 0
  | y :: rest => if y = x then 0 else jsIndexOf rest x + 1

/-- The property bag of a graph node (`CodeGraphNode.properties`).  Each
field is optional, matching absent JS object properties. -/
structure NodeProps where
  filePath : Option String := none
  path : Option String := none
  file : Option String := none
  name : Option String := none
  exported : Option Bool := none
  isExported : Option Bool := none
  startLine : Option Nat := none
  endLine : Option Nat := none
deriving DecidableEq

/-- `CodeGraphNode` from the SDK: id, optional label list, optional
property bag. -/
structure CodeGraphNode where
  id : String
  labels : Option (List String) := none
  properties : Option NodeProps := none
deriving DecidableEq

/-- `CodeGraphRelationship` from the SDK.  `type` is optional (the code
guards it with `rel.type || ''` and `rel.type === 'calls'`). -/
structure CodeGraphRelationship where
  id : String
  type : Option String := none
  startNode : String
  endNode : String
deriving DecidableEq

/-- `CircularDependencyResult` from `circular-deps.ts`. -/
structure CircularDependencyResult where
  id : String
  cycle : List String
  length : Nat
deriving DecidableEq

/-- `DeadCodeResult` from `dead-code.ts`. -/
structure DeadCodeResult where
  id : String
  name : String
  filePath : String
  startLine : Option Nat := none
  endLine : Option Nat := none
deriving DecidableEq

/-- Modelled from the spec: the external `minimatch` glob library, which the
repository imports but does not contain.  The spec requires "shell-glob
semantics with recursive `**` support"; this matcher supports literals,
`?`, `*` (non-separator) and `**` (any segments, including the zero-segment
reading of a leading `pattern` such as `**/foo` matching `foo`).  The fuel
argument bounds recursion depth; every call strictly shrinks
pattern-length + path-length, so the initial fuel in `globMatch` always
suffices. -/
def globGo : Nat → List Char → List Char → Bool
  | 0, _, _ => false
  | _ + 1, [], s => s.isEmpty
  | f + 1, '*' :: '*' :: '/' :: ps, s =>
      globGo f ps s ||
        (match s with
         | [] => false
         | _ :: st => globGo f ('*' :: '*' :: '/' :: ps) st)
  | f + 1, '*' :: '*' :: ps, s =>
      globGo f ps s ||
        (match s with
         | [] => false
         | _ :: st => globGo f ('*' :: '*' :: ps) st)
  | f + 1, '*' :: ps, s =>
      globGo f ps s ||
        (match s with
         | [] => false
         | c :: st => !(c == '/') && globGo f ('*' :: ps) st)
  | f + 1, '?' :: ps, s =>
      (match s with
       | [] => false
       | c :: st => !(c == '/') && globGo f ps st)
  | f + 1, c :: ps, s =>
      (match s with
       | [] => false
       | d :: st => c == d && globGo f ps st)

/-- Modelled from the spec: `minimatch(path, pattern)`. -/
def globMatch (path pattern : String) : Bool :=
  globGo (pattern.data.length + path.data.length + 1) pattern.data path.data

/-- `DEFAULT_EXCLUDE_PATTERNS` (the same list appears in both
`circular-deps.ts` and `dead-code.ts`). -/
def DEFAULT_EXCLUDE_PATTERNS : List String :=
  ["**/node_modules/**", "**/dist/**", "**/build/**", "**/.git/**",
   "**/vendor/**", "**/target/**",
   "**/*.test.ts", "**/*.test.tsx", "**/*.test.js", "**/*.test.jsx",
   "**/*.spec.ts", "**/*.spec.tsx", "**/*.spec.js", "**/*.spec.jsx",
   "**/__tests__/**", "**/__mocks__/**"]

/-- `shouldIgnoreFile` from both modules, parameterized by the external
`minimatch`. -/
def shouldIgnoreFile (minimatch : String → String → Bool)
    (filePath : String) (ignorePatterns : List String) : Bool :=
  (DEFAULT_EXCLUDE_PATTERNS ++ ignorePatterns).any fun pattern => minimatch filePath pattern

/-- `normalizePath`: `value.replace(/\\/g, '/')`. -/
def normalizePath (value : String) : String :=
  ⟨value.data.map (fun c => if c = '\\' then '/' else c)⟩

/-- `getFilePathFromNode`: `props.filePath || props.path || props.file ||
props.name || node.id`. -/
def getFilePathFromNode (node : CodeGraphNode) : String :=
  let props := node.properties.getD {}
  strOr props.filePath (strOr props.path (strOr props.file (strOr props.name node.id)))

/-- The dependency marker substrings from `isDependencyRelationship`. -/
def dependencyMarkers : List String :=
  ["import", "depend", "require", "use", "include", "reference", "module"]

/-- `isDependencyRelationship`: call-typed edges are excluded first, then
an edge is a dependency edge when its lower-cased type contains one of the
markers. -/
def isDependencyRelationship (rel : CodeGraphRelationship) : Bool :=
  let type := jsToLower (rel.type.getD "")
  if containsSub type "call" then false
  else dependencyMarkers.any fun marker => containsSub type marker

/-- The index-tracking loop of `rotateToSmallest` (`minIndex` starts at 0,
`i` runs from 1, strict `<` keeps the first occurrence of the minimum). -/
def minIndexAux : List String → String → Nat → Nat → Nat
  | [], _, bestIdx, _ => bestIdx
  | v :: rest, best, bestIdx, i =>
    if jsLt v best then minIndexAux rest v i (i + 1)
    else minIndexAux rest best bestIdx (i + 1)

/-- The index of the first minimal element, as computed by
`rotateToSmallest`'s loop. -/
def rotMinIdx : List String → Nat
  | [] => 0
  | v :: rest => minIndexAux rest v 0 1

/-- `rotateToSmallest`: `values.slice(minIndex).concat(values.slice(0,
minIndex))`. -/
def rotateToSmallest (values : List String) : List String :=
  match values with
  | [] => []
  | v :: rest =>
    let minIndex := minIndexAux rest v 0 1
    (v :: rest).drop minIndex ++ (v :: rest).take minIndex

/-- The trimming step of `normalizeCycle`: drop a duplicated closing
element (`cycle[0] === cycle[cycle.length - 1]` with `length > 1`). -/
def trimClosing (cycle : List String) : List String :=
  if 1 < cycle.length ∧ cycle.head? = cycle.getLast? then cycle.dropLast else cycle

/-- `normalizeCycle`: trim the closing duplicate, rotate both the forward
sequence and its reversal to their minimal element, and keep whichever
joined key is smaller. -/
def normalizeCycle (cycle : List String) : List String :=
  let trimmed := trimClosing cycle
  let forward := rotateToSmallest trimmed
  let backward := rotateToSmallest trimmed.reverse
  let forwardKey := joinWith "->" forward
  let backwardKey := joinWith "->" backward
  if jsLe forwardKey backwardKey then forward else backward

/-- The regex test `/\.[^/]+$/`: some `.` in the last path segment is
followed by at least one further (non-`/`) character. -/
def hasExtension (s : String) : Bool :=
  ((s.data.reverse.takeWhile (fun c => !(c == '/'))).tail).contains '.'

/-- The extension candidates tried by `resolveFilePath`, in order. -/
def extensionsList : List String := [".ts", ".tsx", ".js", ".jsx", ".mjs", ".cjs"]

/-- The extension loop of `resolveFilePath`: for each extension try
`normalized + ext` then `normalized + '/index' + ext`. -/
def resolveLoop (normalized : String) (referencePaths : List String) :
    List String → Option String
  | [] => none
  | ext :: rest =>
    if (normalized ++ ext) ∈ referencePaths then some (normalized ++ ext)
    else if (normalized ++ "/index" ++ ext) ∈ referencePaths then
      some (normalized ++ "/index" ++ ext)
    else resolveLoop normalized referencePaths rest

/-- `resolveFilePath`: literal (normalized) hit first; the extension loop
only runs when the normalized candidate has no extension. -/
def resolveFilePath (candidate : String) (referencePaths : List String) : Option String :=
  let normalized := normalizePath candidate
  if normalized ∈ referencePaths then some normalized
  else if hasExtension normalized then none
  else resolveLoop normalized referencePaths extensionsList

/-- First loop of `findCircularDependencies`: paths of non-ignored
`File`/`Module`-labeled nodes. -/
def fileNodePathsOf (minimatch : String → String → Bool)
    (nodes : List CodeGraphNode) (ignorePatterns : List String) : List String :=
  nodes.foldl (fun acc node =>
    if !((node.labels.getD []).any fun label => label == "File" || label == "Module") then acc
    else
      let rawPath := normalizePath (getFilePathFromNode node)
      if rawPath = "" ∨ shouldIgnoreFile minimatch rawPath ignorePatterns = true then acc
      else setAdd acc rawPath) []

/-- Fallback loop: paths of all non-ignored nodes, used when no
`File`/`Module` node survives. -/
def allNodePathsOf (minimatch : String → String → Bool)
    (nodes : List CodeGraphNode) (ignorePatterns : List String) : List String :=
  nodes.foldl (fun acc node =>
    let rawPath := normalizePath (getFilePathFromNode node)
    if rawPath = "" ∨ shouldIgnoreFile minimatch rawPath ignorePatterns = true then acc
    else setAdd acc rawPath) []

/-- `referencePaths`: the `File`/`Module` paths, or every node's path when
the former set is empty. -/
def referencePathsOf (minimatch : String → String → Bool)
    (nodes : List CodeGraphNode) (ignorePatterns : List String) : List String :=
  let fileNodePaths := fileNodePathsOf minimatch nodes ignorePatterns
  if 0 < fileNodePaths.length then fileNodePaths
  else allNodePathsOf minimatch nodes ignorePatterns

/-- `filePathById`: every non-ignored node's id mapped to its resolved (or
raw normalized) path. -/
def filePathByIdOf (minimatch : String → String → Bool)
    (nodes : List CodeGraphNode) (ignorePatterns : List String) : List (String × String) :=
  let referencePaths := referencePathsOf minimatch nodes ignorePatterns
  nodes.foldl (fun m node =>
    let rawPath := normalizePath (getFilePathFromNode node)
    if rawPath = "" ∨ shouldIgnoreFile minimatch rawPath ignorePatterns = true then m
    else mapSet m node.id ((resolveFilePath rawPath referencePaths).getD rawPath)) []

/-- `adjacency.get(v) || new Set()`. -/
def adjGet (adj : List (String × List String)) (v : String) : List String :=
  ((adj.find? (fun kv => kv.1 == v)).map (fun kv => kv.2)).getD []

/-- `adjacency.get(s)?.add(e)`: no-op when `s` has no entry. -/
def adjAdd (adj : List (String × List String)) (s e : String) : List (String × List String) :=
  adj.map (fun kv => if kv.1 == s then (kv.1, setAdd kv.2 e) else kv)

/-- The adjacency map: an entry for every resolved path, and an edge
`startPath → endPath` for every dependency relationship with two resolved,
distinct endpoints. -/
def adjacencyOf (minimatch : String → String → Bool)
    (nodes : List CodeGraphNode) (relationships : List CodeGraphRelationship)
    (ignorePatterns : List String) : List (String × List String) :=
  let filePathById := filePathByIdOf minimatch nodes ignorePatterns
  let adjacency0 := (filePathById.map (fun kv => kv.2)).foldl
    (fun m fp => if m.any (fun kv => kv.1 == fp) then m else m ++ [(fp, ([] : List String))]) []
  (relationships.filter isDependencyRelationship).foldl (fun m rel =>
    match mapGet filePathById rel.startNode, mapGet filePathById rel.endNode with
    | some startPath, some endPath =>
      if startPath = "" ∨ endPath = "" then m
      else if startPath = endPath then m
      else adjAdd m startPath endPath
    | _, _ => m) adjacency0

/-- The mutable state of the DFS in `findCircularDependencies`. -/
structure DfsState where
  results : List CircularDependencyResult
  seenCycles : List String
  visited : List String
  stack : List String
  onStack : List String
deriving DecidableEq

/-- The back-edge branch of the DFS: slice the stack from the neighbor's
first index, close the cycle, canonicalize, and emit unless the canonical
key was already seen. -/
def emitCycle (s : DfsState) (neighbor : String) : DfsState :=
  let cycleStartIndex := jsIndexOf s.stack neighbor
  let cycleIds := s.stack.drop cycleStartIndex ++ [neighbor]
  let normalized := normalizeCycle cycleIds
  let cycleKey := joinWith "->" normalized
  if cycleKey ∈ s.seenCycles then s
  else
    { s with
      seenCycles := s.seenCycles ++ [cycleKey]
      results := s.results ++ [⟨cycleKey, normalized, normalized.length⟩] }

/-- Entering a node: mark it visited, push it on the stack, add it to the
on-stack set (the first three lines of the JS `dfs`). -/
def dfsPush (s : DfsState) (n : String) : DfsState :=
  { s with visited := setAdd s.visited n, stack := s.stack ++ [n],
           onStack := setAdd s.onStack n }

/-- Leaving a node: pop the stack, remove the node from the on-stack set
(the last two lines of the JS `dfs`). -/
def dfsPop (s : DfsState) (n : String) : DfsState :=
  { s with stack := s.stack.dropLast, onStack := s.onStack.erase n }

/-- The recursive DFS of `findCircularDependencies`, with the neighbor
loop made explicit: a call on `n :: rest` processes neighbor `n` exactly as
the JS loop body does (descend when unvisited, emit on a back edge) and
then continues with `rest`.  The fuel only bounds the nesting depth of the
recursion; each descent permanently marks a previously unvisited node, so
the initial fuel chosen in `runDfs` (which exceeds the total number of
node-name occurrences in the adjacency structure) is never exhausted. -/
def dfsRun (adj : List (String × List String)) :
    Nat → List String → DfsState → DfsState
  | 0, _, s => s
  | _ + 1, [], s => s
  | fuel + 1, n :: rest, s =>
    if n ∈ s.visited then
      if n ∈ s.onStack then dfsRun adj fuel rest (emitCycle s n)
      else dfsRun adj fuel rest s
    else
      dfsRun adj fuel rest
        (dfsPop (dfsRun adj fuel (adjGet adj n) (dfsPush s n)) n)

/-- Fuel bound for one DFS root call.  The fuel decreases by one on every
recursive call (neighbor step, descent, or continuation), and the total
number of such steps in one JS traversal is at most one (the root) plus
one per descent — each descent permanently marks a previously unvisited
node name occurring in the adjacency structure — plus one per neighbor of
each descended node; `dfsFuel` exceeds that total. -/
def dfsFuel (adj : List (String × List String)) : Nat :=
  adj.length + adj.foldl (fun acc kv => acc + 2 * kv.2.length) 0 + 2

/-- The outer loop of the cycle search: run the DFS from every unvisited
adjacency key, in insertion order. -/
def runDfs (adj : List (String × List String)) : List CircularDependencyResult :=
  (adj.foldl
    (fun s kv => if kv.1 ∈ s.visited then s else dfsRun adj (dfsFuel adj) [kv.1] s)
    ⟨[], [], [], [], []⟩).results

/-- `findCircularDependencies`. -/
def findCircularDependencies (minimatch : String → String → Bool)
    (nodes : List CodeGraphNode) (relationships : List CodeGraphRelationship)
    (ignorePatterns : List String) : List CircularDependencyResult :=
  runDfs (adjacencyOf minimatch nodes relationships ignorePatterns)

/-- One table row of `formatPrComment`: the cycle rendered as a closed path
(`cycle[0]` appended at the end, `' -> '` separated). -/
def prRowOf (i : Nat) (c : CircularDependencyResult) : String :=
  "| " ++ toString (i + 1) ++ " | " ++
    joinWith " -> " (c.cycle ++ [c.cycle.headD ""]) ++ " |"

/-- The row loop of `formatPrComment`: `cycles.slice(0, 50).map((cycle,
index) => ...)`, with the running index made explicit. -/
def prRowsGo (i : Nat) : List CircularDependencyResult → List String
  | [] => []
  | c :: rest => prRowOf i c :: prRowsGo (i + 1) rest

/-- The rows of the `formatPrComment` table. -/
def prComRows (cycles : List CircularDependencyResult) : List String :=
  prRowsGo 0 (cycles.take 50)

/-- The header/body of the non-empty `formatPrComment`, before the optional
truncation note and the footer. -/
def prMainOf (cycles : List CircularDependencyResult) : String :=
  "## Circular Dependency Hunter\n\nFound **" ++ toString cycles.length ++
    "** circular dependenc" ++ (if cycles.length = 1 then "y" else "ies") ++
    ":\n\n| # | Cycle |\n|---|-------|\n" ++ joinWith "\n" (prComRows cycles)

/-- The truncation note of `formatPrComment`. -/
def prTruncOf (cycles : List CircularDependencyResult) : String :=
  "\n\n_...and " ++ toString (cycles.length - 50) ++
    " more. See action output for full list._"

/-- The footer of `formatPrComment`. -/
def prFooter : String :=
  "\n\n---\n_Powered by [Supermodel](https://supermodeltools.com) graph analysis_"

/-- `formatPrComment` from `circular-deps.ts`. -/
def formatPrComment (cycles : List CircularDependencyResult) : String :=
  if cycles.length = 0 then
    "## Circular Dependency Hunter\n\nNo circular dependencies found! Your codebase is clean."
  else
    prMainOf cycles ++ (if 50 < cycles.length then prTruncOf cycles else "") ++ prFooter

/-- `ENTRY_POINT_PATTERNS` from `dead-code.ts`. -/
def ENTRY_POINT_PATTERNS : List String :=
  ["**/index.ts", "**/index.js", "**/main.ts", "**/main.js",
   "**/app.ts", "**/app.js", "**/*.test.*", "**/*.spec.*", "**/__tests__/**"]

/-- `ENTRY_POINT_FUNCTION_NAMES` from `dead-code.ts`. -/
def ENTRY_POINT_FUNCTION_NAMES : List String :=
  ["main", "run", "start", "init", "setup", "bootstrap", "default", "handler",
   "GET", "POST", "PUT", "DELETE", "PATCH"]

/-- `isEntryPointFile`, parameterized by the external `minimatch`. -/
def isEntryPointFile (minimatch : String → String → Bool) (filePath : String) : Bool :=
  ENTRY_POINT_PATTERNS.any fun pattern => minimatch filePath pattern

/-- `isEntryPointFunction`: case-insensitive comparison against the fixed
name list. -/
def isEntryPointFunction (name : String) : Bool :=
  ENTRY_POINT_FUNCTION_NAMES.any fun ep => jsToLower name == jsToLower ep

/-- The file path used by `findDeadCode`: `props.filePath || props.file ||
''`. -/
def deadFilePathOf (node : CodeGraphNode) : String :=
  let props := node.properties.getD {}
  strOr props.filePath (strOr props.file "")

/-- The name used by `findDeadCode`: `props.name || 'anonymous'`. -/
def deadNameOf (node : CodeGraphNode) : String :=
  strOr (node.properties.getD {}).name "anonymous"

/-- The `DeadCodeResult` built for a reported node. -/
def mkDeadResult (node : CodeGraphNode) : DeadCodeResult :=
  ⟨node.id, deadNameOf node, deadFilePathOf node,
   (node.properties.getD {}).startLine, (node.properties.getD {}).endLine⟩

/-- `findDeadCode` from `dead-code.ts`: `Function`-labeled nodes that
survive the five `continue` guards, in order. -/
def findDeadCode (minimatch : String → String → Bool)
    (nodes : List CodeGraphNode) (relationships : List CodeGraphRelationship)
    (ignorePatterns : List String) : List DeadCodeResult :=
  let functionNodes := nodes.filter fun node => (node.labels.getD []).contains "Function"
  let calledFunctionIds : List String :=
    (relationships.filter fun rel => rel.type == some "calls").map fun rel => rel.endNode
  functionNodes.filterMap fun node =>
    if node.id ∈ calledFunctionIds then none
    else if shouldIgnoreFile minimatch (deadFilePathOf node) ignorePatterns then none
    else if isEntryPointFile minimatch (deadFilePathOf node) then none
    else if isEntryPointFunction (deadNameOf node) then none
    else if (node.properties.getD {}).exported == some true ∨
            (node.properties.getD {}).isExported == some true then none
    else some (mkDeadResult node)

/-- Claim-side predicate, stated from the specification's wording: a
`Function` node is dead when (a) its id is the `endNode` of no edge typed
exactly `"calls"`, (b) its file path does not match the ignore filter,
(c) its file path does not match the entry-point file patterns, (d) its
name, case-insensitively, is none of the conventional entry-point names,
and (e) neither `exported` nor `isExported` marks it exported. -/
def claimDeadPred (minimatch : String → String → Bool)
    (relationships : List CodeGraphRelationship) (ignorePatterns : List String)
    (node : CodeGraphNode) : Bool :=
  !(relationships.any fun rel => rel.type == some "calls" && rel.endNode == node.id) &&
  !(shouldIgnoreFile minimatch (deadFilePathOf node) ignorePatterns) &&
  !(isEntryPointFile minimatch (deadFilePathOf node)) &&
  !(ENTRY_POINT_FUNCTION_NAMES.any fun ep => jsToLower (deadNameOf node) == jsToLower ep) &&
  !((node.properties.getD {}).exported == some true ||
    (node.properties.getD {}).isExported == some true)

/-- Claim-side effective path, stated from the specification's wording:
the first non-empty candidate among `filePath`, `path`, `file`, `name`,
falling back to the node id. -/
def effectivePathSpec (node : CodeGraphNode) : String :=
  let props := node.properties.getD {}
  ((([props.filePath, props.path, props.file, props.name].filterMap id).filter
      (fun s => s ≠ "")).headD node.id)

/-- Claim-side resolution try list, stated from the specification's
wording: each extension appended directly and as `/index<ext>`, in the
fixed extension order. -/
def resolveTries (normalized : String) : List String :=
  (extensionsList.map fun ext => [normalized ++ ext, normalized ++ "/index" ++ ext]).flatten

/-! ### Order properties of the modelled JS string comparison -/

theorem charListLt_nil_cons {y : Char} {ys : List Char} :
    charListLt [] (y :: ys) = true := rfl

theorem charListLt_cons_iff {x y : Char} {xs ys : List Char} :
    charListLt (x :: xs) (y :: ys) = true ↔
      x < y ∨ (x = y ∧ charListLt xs ys = true) := by
  simp only [charListLt]
  by_cases hxy : x < y
  · simp [hxy]
  · by_cases hyx : y < x
    · simp [hxy, hyx, ne_of_gt hyx]
    · have hx : x = y := le_antisymm (not_lt.mp hyx) (not_lt.mp hxy)
      subst hx
      simp [lt_irrefl]

theorem charListLt_irrefl (l : List Char) : charListLt l l = false := by
  induction l with
  | nil => rfl
  | cons a as ih => simp [charListLt, lt_irrefl, ih]

theorem charListLt_trans {a b c : List Char} (hab : charListLt a b = true)
    (hbc : charListLt b c = true) : charListLt a c = true := by
  induction a generalizing b c with
  | nil =>
    cases b with
    | nil => simp [charListLt] at hab
    | cons y ys =>
      cases c with
      | nil => simp [charListLt] at hbc
      | cons z zs => exact charListLt_nil_cons
  | cons x xs ih =>
    cases b with
    | nil => simp [charListLt] at hab
    | cons y ys =>
      cases c with
      | nil => simp [charListLt] at hbc
      | cons z zs =>
        rw [charListLt_cons_iff] at hab hbc ⊢
        rcases hab with hxy | ⟨rfl, hab⟩
        · rcases hbc with hyz | ⟨rfl, hbc⟩
          · exact Or.inl (lt_trans hxy hyz)
          · exact Or.inl hxy
        · rcases hbc with hyz | ⟨rfl, hbc⟩
          · exact Or.inl hyz
          · exact Or.inr ⟨rfl, ih hab hbc⟩

theorem charListLt_connex {a b : List Char} (hab : charListLt a b = false)
    (hba : charListLt b a = false) : a = b := by
  induction a generalizing b with
  | nil =>
    cases b with
    | nil => rfl
    | cons y ys => simp [charListLt] at hab
  | cons x xs ih =>
    cases b with
    | nil => simp [charListLt] at hba
    | cons y ys =>
      by_cases hxy : x < y
      · have : charListLt (x :: xs) (y :: ys) = true :=
          charListLt_cons_iff.mpr (Or.inl hxy)
        rw [this] at hab
        exact absurd hab (by simp)
      · by_cases hyx : y < x
        · have : charListLt (y :: ys) (x :: xs) = true :=
            charListLt_cons_iff.mpr (Or.inl hyx)
          rw [this] at hba
          exact absurd hba (by simp)
        · have hx : x = y := le_antisymm (not_lt.mp hyx) (not_lt.mp hxy)
          subst hx
          have hab2 : charListLt xs ys = false := by
            cases h : charListLt xs ys with
            | false => rfl
            | true =>
              have : charListLt (x :: xs) (x :: ys) = true :=
                charListLt_cons_iff.mpr (Or.inr ⟨rfl, h⟩)
              rw [this] at hab
              exact absurd hab (by simp)
          have hba2 : charListLt ys xs = false := by
            cases h : charListLt ys xs with
            | false => rfl
            | true =>
              have : charListLt (x :: ys) (x :: xs) = true :=
                charListLt_cons_iff.mpr (Or.inr ⟨rfl, h⟩)
              rw [this] at hba
              exact absurd hba (by simp)
          exact congrArg (x :: ·) (ih hab2 hba2)

theorem jsLt_irrefl (a : String) : jsLt a a = false := charListLt_irrefl a.data

theorem jsLt_trans {a b c : String} (hab : jsLt a b = true) (hbc : jsLt b c = true) :
    jsLt a c = true := charListLt_trans hab hbc

theorem jsLt_connex {a b : String} (hab : jsLt a b = false) (hba : jsLt b a = false) :
    a = b := String.ext (charListLt_connex hab hba)

theorem jsLt_asymm {a b : String} (h : jsLt a b = true) : jsLt b a = false := by
  cases hh : jsLt b a with
  | false => rfl
  | true =>
    have := jsLt_trans h hh
    rw [jsLt_irrefl] at this
    exact absurd this (by simp)

/-! ### `rotateToSmallest`: rotation to the first minimal element -/

theorem minIndexAux_spec (l : List String) : ∀ (best : String) (b i : Nat),
    (minIndexAux l best b i = b ∧ ∀ x ∈ l, jsLt x best = false) ∨
    (∃ j, j < l.length ∧ minIndexAux l best b i = i + j ∧
      jsLt (l.getD j "") best = true ∧ ∀ x ∈ l, jsLt x (l.getD j "") = false) := by
  induction l with
  | nil =>
    intro best b i
    left
    exact ⟨rfl, by simp⟩
  | cons v rest ih =>
    intro best b i
    simp only [minIndexAux]
    by_cases hv : jsLt v best = true
    · rw [if_pos hv]
      rcases ih v i (i + 1) with ⟨heq, hall⟩ | ⟨j, hj, heq, hlt, hall⟩
      · right
        refine ⟨0, by simp, by simpa using heq, by simpa using hv, ?_⟩
        intro x hx
        rcases List.mem_cons.mp hx with rfl | hx
        · simpa using jsLt_irrefl x
        · simpa using hall x hx
      · right
        refine ⟨j + 1, by simpa using Nat.succ_lt_succ hj, ?_, ?_, ?_⟩
        · rw [heq]; omega
        · simpa using jsLt_trans hlt hv
        · intro x hx
          rcases List.mem_cons.mp hx with rfl | hx
          · simpa using jsLt_asymm hlt
          · simpa using hall x hx
    · have hv2 : jsLt v best = false := by
        cases h : jsLt v best with
        | false => rfl
        | true => exact absurd h hv
      rw [if_neg hv]
      rcases ih best b (i + 1) with ⟨heq, hall⟩ | ⟨j, hj, heq, hlt, hall⟩
      · left
        refine ⟨heq, ?_⟩
        intro x hx
        rcases List.mem_cons.mp hx with rfl | hx
        · exact hv2
        · exact hall x hx
      · right
        refine ⟨j + 1, by simpa using Nat.succ_lt_succ hj, ?_, ?_, ?_⟩
        · rw [heq]; omega
        · simpa using hlt
        · intro x hx
          rcases List.mem_cons.mp hx with rfl | hx
          · simp only [List.getD_cons_succ]
            cases h : jsLt x (rest.getD j "") with
            | false => rfl
            | true =>
              have h2 := jsLt_trans h hlt
              rw [hv2] at h2
              exact absurd h2 (by simp)
          · simpa using hall x hx

theorem rotMinIdx_lt_length (l : List String) (hl : l ≠ []) :
    rotMinIdx l < l.length := by
  cases l with
  | nil => exact absurd rfl hl
  | cons v rest =>
    show minIndexAux rest v 0 1 < (v :: rest).length
    rcases minIndexAux_spec rest v 0 1 with ⟨heq, -⟩ | ⟨j, hj, heq, -, -⟩
    · rw [heq]; simp
    · rw [heq]; simp; omega

theorem rotMinIdx_min (l : List String) :
    ∀ x ∈ l, jsLt x (l.getD (rotMinIdx l) "") = false := by
  cases l with
  | nil => simp
  | cons v rest =>
    show ∀ x ∈ v :: rest, jsLt x ((v :: rest).getD (minIndexAux rest v 0 1) "") = false
    rcases minIndexAux_spec rest v 0 1 with ⟨heq, hall⟩ | ⟨j, hj, heq, hlt, hall⟩
    · rw [heq]
      intro x hx
      rcases List.mem_cons.mp hx with rfl | hx
      · simpa using jsLt_irrefl x
      · simpa using hall x hx
    · rw [heq]
      have h1j : 1 + j = j + 1 := by omega
      rw [h1j]
      intro x hx
      rcases List.mem_cons.mp hx with rfl | hx
      · simpa using jsLt_asymm hlt
      · simpa using hall x hx

theorem rotateToSmallest_eq_rotate (l : List String) (hl : l ≠ []) :
    rotateToSmallest l = l.rotate (rotMinIdx l) := by
  have hm := rotMinIdx_lt_length l hl
  cases l with
  | nil => exact absurd rfl hl
  | cons v rest =>
    show (v :: rest).drop (minIndexAux rest v 0 1) ++
      (v :: rest).take (minIndexAux rest v 0 1) = _
    rw [List.rotate_eq_drop_append_take (le_of_lt hm)]
    rfl

theorem rotateToSmallest_perm (l : List String) : (rotateToSmallest l).Perm l := by
  cases l with
  | nil => simp [rotateToSmallest]
  | cons v rest =>
    show ((v :: rest).drop (minIndexAux rest v 0 1) ++
      (v :: rest).take (minIndexAux rest v 0 1)).Perm (v :: rest)
    calc ((v :: rest).drop (minIndexAux rest v 0 1) ++
        (v :: rest).take (minIndexAux rest v 0 1)).Perm
          ((v :: rest).take (minIndexAux rest v 0 1) ++
            (v :: rest).drop (minIndexAux rest v 0 1)) := List.perm_append_comm
    _ = v :: rest := List.take_append_drop _ _

theorem getD_eq_get_strings : ∀ (l : List String) (j : Nat) (h : j < l.length),
    l.getD j "" = l.get ⟨j, h⟩ := by
  intro l
  induction l with
  | nil => intro j h; simp at h
  | cons v rest ih =>
    intro j h
    cases j with
    | zero => rfl
    | succ k => simpa using ih k (by simpa using h)

theorem getD_rotate_zero (l : List String) (n : Nat) (hl : l ≠ []) :
    (l.rotate n).getD 0 "" = l.getD (n % l.length) "" := by
  have hlp : 0 < l.length := List.length_pos.mpr hl
  have h0 : 0 < (l.rotate n).length := by
    rw [List.length_rotate]; exact hlp
  have hmod : n % l.length < l.length := Nat.mod_lt _ hlp
  rw [getD_eq_get_strings _ 0 h0, getD_eq_get_strings _ _ hmod]
  rw [List.get_rotate]
  congr 1
  simp

theorem getD_mem_of_lt (l : List String) (j : Nat) (h : j < l.length) :
    l.getD j "" ∈ l := by
  rw [getD_eq_get_strings l j h]
  exact List.get_mem l j h

/-- `rotateToSmallest` is invariant under rotation of a duplicate-free
list: both sides are the unique rotation starting at the minimum. -/
theorem rotateToSmallest_rotate (l : List String) (hnd : l.Nodup) (n : Nat) :
    rotateToSmallest (l.rotate n) = rotateToSmallest l := by
  rcases eq_or_ne l [] with rfl | hl
  · simp
  · have hlp : 0 < l.length := List.length_pos.mpr hl
    have hXlen : (l.rotate n).length = l.length := List.length_rotate l n
    have hX : l.rotate n ≠ [] := by
      intro h
      rw [h] at hXlen
      simp at hXlen
      omega
    have hm1 : rotMinIdx l < l.length := rotMinIdx_lt_length l hl
    have hm2 : rotMinIdx (l.rotate n) < (l.rotate n).length :=
      rotMinIdx_lt_length _ hX
    have hLHS : rotateToSmallest (l.rotate n) = l.rotate (n + rotMinIdx (l.rotate n)) := by
      rw [rotateToSmallest_eq_rotate _ hX, List.rotate_rotate]
    have hRHS : rotateToSmallest l = l.rotate (rotMinIdx l) :=
      rotateToSmallest_eq_rotate l hl
    -- the head value of the left-hand side, two ways
    have hv1 : (l.rotate (n + rotMinIdx (l.rotate n))).getD 0 "" =
        l.getD ((n + rotMinIdx (l.rotate n)) % l.length) "" :=
      getD_rotate_zero l _ hl
    have hv2 : ((l.rotate n).rotate (rotMinIdx (l.rotate n))).getD 0 "" =
        (l.rotate n).getD (rotMinIdx (l.rotate n)) "" := by
      rw [getD_rotate_zero (l.rotate n) _ hX, hXlen, Nat.mod_eq_of_lt (hXlen ▸ hm2)]
    have hv12 : (l.rotate n).getD (rotMinIdx (l.rotate n)) "" =
        l.getD ((n + rotMinIdx (l.rotate n)) % l.length) "" := by
      rw [← hv1, ← hv2, List.rotate_rotate]
    -- both head values are minimal over the same multiset, hence equal
    have hminL : ∀ x ∈ l, jsLt x ((l.rotate n).getD (rotMinIdx (l.rotate n)) "") = false := by
      intro x hx
      exact rotMinIdx_min (l.rotate n) x (((List.rotate_perm l n).mem_iff).mpr hx)
    have hminR : ∀ x ∈ l, jsLt x (l.getD (rotMinIdx l) "") = false :=
      rotMinIdx_min l
    have hmemL : (l.rotate n).getD (rotMinIdx (l.rotate n)) "" ∈ l :=
      ((List.rotate_perm l n).mem_iff).mp (getD_mem_of_lt _ _ hm2)
    have hmemR : l.getD (rotMinIdx l) "" ∈ l := getD_mem_of_lt _ _ hm1
    have heq : (l.rotate n).getD (rotMinIdx (l.rotate n)) "" = l.getD (rotMinIdx l) "" :=
      jsLt_connex (hminR _ hmemL) (hminL _ hmemR)
    -- Nodup: equal values at two indices forces equal indices
    have hmodlt : (n + rotMinIdx (l.rotate n)) % l.length < l.length := Nat.mod_lt _ hlp
    have hidx : (n + rotMinIdx (l.rotate n)) % l.length = rotMinIdx l := by
      have : l.get ⟨(n + rotMinIdx (l.rotate n)) % l.length, hmodlt⟩ =
          l.get ⟨rotMinIdx l, hm1⟩ := by
        rw [← getD_eq_get_strings, ← getD_eq_get_strings]
        rw [← hv12, heq]
      have h2 := (hnd.get_inj_iff).mp this
      exact congrArg Fin.val h2
    rw [hLHS, hRHS, ← List.rotate_mod l (n + rotMinIdx (l.rotate n)), hidx]

/-! ### `normalizeCycle`: trimming, permutation, idempotence -/

theorem normalizeCycle_eq (c : List String) :
    normalizeCycle c =
      if jsLe (joinWith "->" (rotateToSmallest (trimClosing c)))
          (joinWith "->" (rotateToSmallest (trimClosing c).reverse)) = true
      then rotateToSmallest (trimClosing c)
      else rotateToSmallest (trimClosing c).reverse := rfl

theorem trimClosing_eq_self_of_nodup (w : List String) (h : w.Nodup) :
    trimClosing w = w := by
  cases w with
  | nil => rfl
  | cons a w2 =>
  cases w2 with
  | nil => rfl
  | cons b t =>
    rw [trimClosing, if_neg]
    rintro ⟨-, hhead⟩
    have hlast : (a :: b :: t).getLast? = some ((b :: t).getLast (by simp)) := by
      rw [List.getLast?_eq_getLast _ (by simp), List.getLast_cons (by simp)]
    rw [hlast] at hhead
    have hh : a = (b :: t).getLast (by simp) := by
      simpa using hhead
    have hmem : a ∈ b :: t := hh ▸ List.getLast_mem (by simp)
    have := (List.nodup_cons.mp h).1
    exact this hmem

theorem normalizeCycle_perm_trim (c : List String) :
    (normalizeCycle c).Perm (trimClosing c) := by
  rw [normalizeCycle_eq]
  by_cases hle : jsLe (joinWith "->" (rotateToSmallest (trimClosing c)))
      (joinWith "->" (rotateToSmallest (trimClosing c).reverse)) = true
  · rw [if_pos hle]
    exact rotateToSmallest_perm _
  · rw [if_neg hle]
    exact (rotateToSmallest_perm _).trans (List.reverse_perm _)

theorem rotateToSmallest_of_isRotated (a b : List String) (hnd : a.Nodup)
    (h : a ~r b) : rotateToSmallest b = rotateToSmallest a := by
  obtain ⟨n, rfl⟩ := h
  exact rotateToSmallest_rotate a hnd n

/-- After canonicalizing a duplicate-free cycle, the forward and backward
rotated forms of the *result* are the same two lists again. -/
theorem rotateToSmallest_normalized (t : List String) (hnd : t.Nodup) (ht : t ≠ []) :
    rotateToSmallest (rotateToSmallest t) = rotateToSmallest t ∧
    rotateToSmallest (rotateToSmallest t).reverse = rotateToSmallest t.reverse ∧
    rotateToSmallest (rotateToSmallest t.reverse) = rotateToSmallest t.reverse ∧
    rotateToSmallest (rotateToSmallest t.reverse).reverse = rotateToSmallest t := by
  have hndr : t.reverse.Nodup := by simpa using hnd
  have htr : t.reverse ≠ [] := by simpa using ht
  have hF : t ~r rotateToSmallest t :=
    ⟨rotMinIdx t, (rotateToSmallest_eq_rotate t ht).symm⟩
  have hB : t.reverse ~r rotateToSmallest t.reverse :=
    ⟨rotMinIdx t.reverse, (rotateToSmallest_eq_rotate t.reverse htr).symm⟩
  refine ⟨rotateToSmallest_of_isRotated t _ hnd hF, ?_, ?_, ?_⟩
  · have : t.reverse ~r (rotateToSmallest t).reverse := hF.reverse
    exact rotateToSmallest_of_isRotated t.reverse _ hndr this
  · exact rotateToSmallest_of_isRotated t.reverse _ hndr hB
  · have : t ~r (rotateToSmallest t.reverse).reverse := by
      have := hB.reverse
      rwa [List.reverse_reverse] at this
    exact rotateToSmallest_of_isRotated t _ hnd this

theorem normalizeCycle_of_nodup (w : List String) (h : w.Nodup) :
    normalizeCycle w =
      if jsLe (joinWith "->" (rotateToSmallest w))
          (joinWith "->" (rotateToSmallest w.reverse)) = true
      then rotateToSmallest w
      else rotateToSmallest w.reverse := by
  rw [normalizeCycle_eq, trimClosing_eq_self_of_nodup w h]

theorem jsLe_of_not_jsLe {a b : String} (h : ¬ jsLe a b = true) : jsLe b a = true := by
  have hf : jsLe a b = false := by
    cases hh : jsLe a b with
    | false => rfl
    | true => exact absurd hh h
  have hlt : jsLt b a = true := by
    unfold jsLe at hf
    cases hh : jsLt b a with
    | false => rw [hh] at hf; simp at hf
    | true => rfl
  unfold jsLe
  rw [jsLt_asymm hlt]
  rfl

theorem normalizeCycle_idem (c : List String) (h : (trimClosing c).Nodup) :
    normalizeCycle (normalizeCycle c) = normalizeCycle c := by
  rcases eq_or_ne (trimClosing c) [] with h0 | htne
  · have hc : normalizeCycle c = [] := by
      rw [normalizeCycle_eq, h0]
      simp [rotateToSmallest, joinWith]
    rw [hc]
    rfl
  · obtain ⟨hFF, hFB, hBB, hBF⟩ :=
      rotateToSmallest_normalized (trimClosing c) h htne
    by_cases hle : jsLe (joinWith "->" (rotateToSmallest (trimClosing c)))
        (joinWith "->" (rotateToSmallest (trimClosing c).reverse)) = true
    · have hres : normalizeCycle c = rotateToSmallest (trimClosing c) := by
        rw [normalizeCycle_eq, if_pos hle]
      have hnd : (rotateToSmallest (trimClosing c)).Nodup :=
        ((rotateToSmallest_perm (trimClosing c)).symm).nodup h
      rw [hres, normalizeCycle_of_nodup _ hnd, hFF, hFB, if_pos hle]
    · have hres : normalizeCycle c = rotateToSmallest (trimClosing c).reverse := by
        rw [normalizeCycle_eq, if_neg hle]
      have hndr : (rotateToSmallest (trimClosing c).reverse).Nodup := by
        have h2 : (trimClosing c).reverse.Nodup := by simpa using h
        exact ((rotateToSmallest_perm (trimClosing c).reverse).symm).nodup h2
      rw [hres, normalizeCycle_of_nodup _ hndr, hBB, hBF,
        if_pos (jsLe_of_not_jsLe hle)]

/-! ### Injectivity of the `"->"` join on separator-free paths -/

theorem sepSplit : ∀ (a b x y : List Char),
    ¬ (['-', '>'] <:+: a) → ¬ (['-', '>'] <:+: b) →
    a ++ '-' :: '>' :: x = b ++ '-' :: '>' :: y → a = b ∧ x = y := by
  intro a
  induction a with
  | nil =>
    intro b x y _ hb h
    cases b with
    | nil =>
      simp only [List.nil_append] at h
      injection h with h1 h2
      injection h2 with h3 h4
      exact ⟨rfl, h4⟩
    | cons c b2 =>
      simp only [List.nil_append, List.cons_append] at h
      injection h with h1 h2
      subst h1
      cases b2 with
      | nil =>
        simp only [List.nil_append] at h2
        injection h2 with h3 h4
        exact absurd h3 (by decide)
      | cons d b3 =>
        simp only [List.cons_append] at h2
        injection h2 with h3 h4
        subst h3
        exfalso
        exact hb (List.IsPrefix.isInfix ⟨b3, rfl⟩)
  | cons c a2 ih =>
    intro b x y ha hb h
    cases b with
    | nil =>
      simp only [List.nil_append, List.cons_append] at h
      injection h with h1 h2
      subst h1
      cases a2 with
      | nil =>
        simp only [List.nil_append] at h2
        injection h2 with h3 h4
        exact absurd h3 (by decide)
      | cons d a3 =>
        simp only [List.cons_append] at h2
        injection h2 with h3 h4
        subst h3
        exfalso
        exact ha (List.IsPrefix.isInfix ⟨a3, rfl⟩)
    | cons d b2 =>
      simp only [List.cons_append] at h
      injection h with h1 h2
      subst h1
      have ha2 : ¬ (['-', '>'] <:+: a2) := fun hin => ha (List.infix_cons hin)
      have hb2 : ¬ (['-', '>'] <:+: b2) := fun hin => hb (List.infix_cons hin)
      obtain ⟨heq, hxy⟩ := ih b2 x y ha2 hb2 h2
      exact ⟨by rw [heq], hxy⟩

theorem noSep_data {s : String} (h : containsSub s "->" = false) :
    ¬ (['-', '>'] <:+: s.data) := by
  intro hin
  have : containsSub s "->" = true := by
    unfold containsSub
    exact decide_eq_true hin
  rw [h] at this
  exact absurd this (by simp)

theorem joinWith_arrow_inj : ∀ (xs ys : List String),
    xs.length = ys.length →
    (∀ s ∈ xs, containsSub s "->" = false) →
    (∀ s ∈ ys, containsSub s "->" = false) →
    joinWith "->" xs = joinWith "->" ys → xs = ys := by
  intro xs
  induction xs with
  | nil =>
    intro ys hlen _ _ _
    cases ys with
    | nil => rfl
    | cons b t => simp at hlen
  | cons a as ih =>
    intro ys hlen hx hy h
    cases ys with
    | nil => simp at hlen
    | cons b bs =>
      cases as with
      | nil =>
        cases bs with
        | nil =>
          show [a] = [b]
          rw [show joinWith "->" [a] = a from rfl,
            show joinWith "->" [b] = b from rfl] at h
          rw [h]
        | cons b2 bt => simp at hlen
      | cons a2 at' =>
        cases bs with
        | nil => simp at hlen
        | cons b2 bt =>
          have hja : joinWith "->" (a :: a2 :: at') =
              a ++ "->" ++ joinWith "->" (a2 :: at') := rfl
          have hjb : joinWith "->" (b :: b2 :: bt) =
              b ++ "->" ++ joinWith "->" (b2 :: bt) := rfl
          rw [hja, hjb] at h
          have hdata : a.data ++ '-' :: '>' :: (joinWith "->" (a2 :: at')).data =
              b.data ++ '-' :: '>' :: (joinWith "->" (b2 :: bt)).data := by
            have h2 := congrArg String.data h
            rw [String.data_append, String.data_append,
              String.data_append, String.data_append] at h2
            simpa using h2
          obtain ⟨heq, hrest⟩ := sepSplit a.data b.data _ _
            (noSep_data (hx a (by simp)))
            (noSep_data (hy b (by simp))) hdata
          have hab : a = b := String.ext heq
          have htails : a2 :: at' = b2 :: bt := by
            refine ih (b2 :: bt) (by simpa using hlen) ?_ ?_ (String.ext hrest)
            · intro s hs
              exact hx s (List.mem_cons_of_mem a hs)
            · intro s hs
              exact hy s (List.mem_cons_of_mem b hs)
          rw [hab, htails]

theorem jsLe_antisymm {a b : String} (h1 : jsLe a b = true) (h2 : jsLe b a = true) :
    a = b := by
  unfold jsLe at h1 h2
  have hba : jsLt b a = false := by
    cases hh : jsLt b a with
    | false => rfl
    | true => rw [hh] at h1; simp at h1
  have hab : jsLt a b = false := by
    cases hh : jsLt a b with
    | false => rfl
    | true => rw [hh] at h2; simp at h2
  exact jsLt_connex hab hba

theorem normalizeCycle_invariant (u v : List String) (hnd : u.Nodup)
    (hsep : ∀ s ∈ u, containsSub s "->" = false)
    (hrot : (∃ n, v = u.rotate n) ∨ (∃ n, v = u.reverse.rotate n)) :
    normalizeCycle v = normalizeCycle u := by
  rcases eq_or_ne u [] with rfl | hu
  · rcases hrot with ⟨n, rfl⟩ | ⟨n, rfl⟩ <;> simp
  · have hur : u.reverse.Nodup := by simpa using hnd
    have huneq : u.reverse ≠ [] := by simpa using hu
    rcases hrot with ⟨n, rfl⟩ | ⟨n, rfl⟩
    · have hvnd : (u.rotate n).Nodup := List.nodup_rotate.mpr hnd
      have hF : rotateToSmallest (u.rotate n) = rotateToSmallest u :=
        rotateToSmallest_rotate u hnd n
      have hB : rotateToSmallest (u.rotate n).reverse = rotateToSmallest u.reverse := by
        have hr : u.reverse ~r (u.rotate n).reverse :=
          List.IsRotated.reverse ⟨n, rfl⟩
        exact rotateToSmallest_of_isRotated u.reverse _ hur hr
      rw [normalizeCycle_of_nodup _ hvnd, normalizeCycle_of_nodup _ hnd, hF, hB]
    · have hvnd : (u.reverse.rotate n).Nodup := List.nodup_rotate.mpr hur
      have hF : rotateToSmallest (u.reverse.rotate n) = rotateToSmallest u.reverse :=
        rotateToSmallest_rotate u.reverse hur n
      have hB : rotateToSmallest (u.reverse.rotate n).reverse = rotateToSmallest u := by
        have hr : u ~r (u.reverse.rotate n).reverse := by
          have h2 : u.reverse.reverse ~r (u.reverse.rotate n).reverse :=
            List.IsRotated.reverse ⟨n, rfl⟩
          rwa [List.reverse_reverse] at h2
        exact rotateToSmallest_of_isRotated u _ hnd hr
      rw [normalizeCycle_of_nodup _ hvnd, normalizeCycle_of_nodup _ hnd, hF, hB]
      by_cases h1 : jsLe (joinWith "->" (rotateToSmallest u))
          (joinWith "->" (rotateToSmallest u.reverse)) = true
      · by_cases h2 : jsLe (joinWith "->" (rotateToSmallest u.reverse))
            (joinWith "->" (rotateToSmallest u)) = true
        · -- equal keys: the two representatives coincide
          have hkeys := jsLe_antisymm h2 h1
          have hFB : rotateToSmallest u.reverse = rotateToSmallest u := by
            have hlen : (rotateToSmallest u.reverse).length =
                (rotateToSmallest u).length := by
              rw [(rotateToSmallest_perm u.reverse).length_eq,
                (rotateToSmallest_perm u).length_eq, List.length_reverse]
            refine joinWith_arrow_inj _ _ hlen ?_ ?_ hkeys
            · intro s hs
              have : s ∈ u := by
                have h3 := (rotateToSmallest_perm u.reverse).mem_iff.mp hs
                simpa using h3
              exact hsep s this
            · intro s hs
              exact hsep s ((rotateToSmallest_perm u).mem_iff.mp hs)
          rw [hFB]
        · rw [if_neg h2, if_pos h1]
      · rw [if_neg h1, if_pos (jsLe_of_not_jsLe h1)]

/-! ### Claim C2 -/

/-- C2 counterexample: as stated, the claim fails on the code.  Idempotence
fails at the concrete input `["a","b","a","a"]` (one application yields
`["a","b","a"]`, a second yields `["a","b"]`), and rotation/reversal
invariance fails for the distinct-path input `["a","b->b","b"]` against its
reversal `["b","b->b","a"]`, because the joined dedup key is ambiguous when
a path contains the separator `"->"`. -/
theorem claim_C2_counterexample :
    normalizeCycle (normalizeCycle ["a", "b", "a", "a"]) ≠
      normalizeCycle ["a", "b", "a", "a"] ∧
    (["b", "b->b", "a"] = (["a", "b->b", "b"] : List String).reverse ∧
     (["a", "b->b", "b"] : List String).Nodup ∧
     normalizeCycle ["b", "b->b", "a"] ≠ normalizeCycle ["a", "b->b", "b"]) := by
  decide

/-- C2 (amended): `normalizeCycle` is idempotent on every input whose
trimmed sequence (after dropping a duplicated closing element) contains no
repeated path, and for any two duplicate-free inputs that are rotations of
one another or rotations of each other's reversal it returns the identical
representative, provided no path contains the separator `"->"`. -/
theorem claim_C2_normalizeCycle_canonical :
    (∀ c : List String, (trimClosing c).Nodup →
        normalizeCycle (normalizeCycle c) = normalizeCycle c) ∧
    (∀ u v : List String, u.Nodup →
        (∀ s ∈ u, containsSub s "->" = false) →
        ((∃ n, v = u.rotate n) ∨ (∃ n, v = u.reverse.rotate n)) →
        normalizeCycle v = normalizeCycle u) :=
  ⟨normalizeCycle_idem, normalizeCycle_invariant⟩

/-- C2 witness: the amended theorem at concrete inputs — idempotence on
`["b.ts","a.ts"]` and invariance of that cycle against its reversal. -/
theorem claim_C2_witness :
    normalizeCycle (normalizeCycle ["b.ts", "a.ts"]) = normalizeCycle ["b.ts", "a.ts"] ∧
    normalizeCycle ["b.ts", "a.ts"] = normalizeCycle ["a.ts", "b.ts"] :=
  ⟨claim_C2_normalizeCycle_canonical.1 ["b.ts", "a.ts"] (by decide),
   claim_C2_normalizeCycle_canonical.2 ["a.ts", "b.ts"] ["b.ts", "a.ts"] (by decide)
     (by decide) (Or.inr ⟨0, by decide⟩)⟩

/-! ### Claim C4 -/

/-- C4: the relationship classifier returns false whenever the lower-cased
type contains the substring `"call"`, even if a dependency marker is also
present (call-exclusion takes precedence); otherwise it returns true
exactly when the lower-cased type contains one of the substrings `import`,
`depend`, `require`, `use`, `include`, `reference`, `module`. -/
theorem claim_C4_isDependencyRelationship (rel : CodeGraphRelationship) :
    isDependencyRelationship rel =
      (!containsSub (jsToLower (rel.type.getD "")) "call" &&
        (containsSub (jsToLower (rel.type.getD "")) "import" ||
         containsSub (jsToLower (rel.type.getD "")) "depend" ||
         containsSub (jsToLower (rel.type.getD "")) "require" ||
         containsSub (jsToLower (rel.type.getD "")) "use" ||
         containsSub (jsToLower (rel.type.getD "")) "include" ||
         containsSub (jsToLower (rel.type.getD "")) "reference" ||
         containsSub (jsToLower (rel.type.getD "")) "module")) := by
  unfold isDependencyRelationship dependencyMarkers
  cases h : containsSub (jsToLower (rel.type.getD "")) "call" with
  | true => simp [h]
  | false => simp [h, Bool.or_assoc]

/-! ### Claim C6 -/

/-- C6 counterexample: a candidate that is literally in the known path set
but contains a backslash is not returned — `resolveFilePath` normalizes
the candidate before the literal lookup, so the claim's "returns the
candidate itself when it is in the known path set" fails. -/
theorem claim_C6_counterexample :
    ("a\\b.ts" : String) ∈ (["a\\b.ts"] : List String) ∧
    resolveFilePath "a\\b.ts" ["a\\b.ts"] = none := by
  decide

theorem resolveLoop_eq_find? (n : String) (refs : List String) :
    ∀ exts : List String,
      resolveLoop n refs exts =
        ((exts.map fun ext => [n ++ ext, n ++ "/index" ++ ext]).flatten).find?
          (fun t => decide (t ∈ refs)) := by
  intro exts
  induction exts with
  | nil => rfl
  | cons e rest ih =>
    simp only [resolveLoop, List.map_cons, List.flatten_cons, List.cons_append,
      List.nil_append, List.find?_cons]
    by_cases h1 : (n ++ e) ∈ refs
    · simp [h1]
    · by_cases h2 : (n ++ "/index" ++ e) ∈ refs
      · simp [h1, h2]
      · simp [h1, h2, ih]

/-- C6 (amended): `resolveFilePath` first normalizes the candidate
(backslashes become slashes); it returns the normalized candidate when that
is in the known path set; otherwise, only when the normalized candidate has
no file extension, it tries the suffixes `.ts,.tsx,.js,.jsx,.mjs,.cjs` in
that fixed order, each appended directly and as `/index<ext>`, returning
the first try found in the known set; in every other case (including every
normalized candidate that has an extension but is not in the set) it
returns nothing. -/
theorem claim_C6_resolveFilePath (candidate : String) (referencePaths : List String) :
    resolveFilePath candidate referencePaths =
      (if normalizePath candidate ∈ referencePaths then some (normalizePath candidate)
       else if hasExtension (normalizePath candidate) = true then none
       else (resolveTries (normalizePath candidate)).find?
         (fun t => decide (t ∈ referencePaths))) := by
  unfold resolveFilePath resolveTries
  by_cases h1 : normalizePath candidate ∈ referencePaths
  · rw [if_pos h1, if_pos h1]
  · rw [if_neg h1, if_neg h1]
    by_cases h2 : hasExtension (normalizePath candidate) = true
    · rw [if_pos h2, if_pos h2]
    · rw [if_neg h2, if_neg h2]
      exact resolveLoop_eq_find? _ _ _

/-! ### `findDeadCode` as a filter over the claim's five conditions -/

theorem filterMap_if_eq_filter_map {α β : Type} (l : List α) (p : α → Bool) (g : α → β) :
    (l.filterMap fun a => if p a then some (g a) else none) = (l.filter p).map g := by
  induction l with
  | nil => rfl
  | cons a t ih =>
    by_cases h : p a
    · simp [List.filterMap_cons, List.filter_cons, h, ih]
    · simp [List.filterMap_cons, List.filter_cons, h, ih]

theorem called_mem_iff (rels : List CodeGraphRelationship) (x : String) :
    (x ∈ (rels.filter fun rel => rel.type == some "calls").map fun rel => rel.endNode) ↔
      (rels.any fun rel => rel.type == some "calls" && rel.endNode == x) = true := by
  simp only [List.mem_map, List.mem_filter, List.any_eq_true, Bool.and_eq_true,
    beq_iff_eq]
  constructor
  · rintro ⟨rel, ⟨hm, ht⟩, he⟩
    exact ⟨rel, hm, ht, he⟩
  · rintro ⟨rel, hm, ht, he⟩
    exact ⟨rel, ⟨hm, ht⟩, he⟩

theorem filterMap_congr_fun {α β : Type} (l : List α) (f g : α → Option β)
    (h : ∀ a, f a = g a) : l.filterMap f = l.filterMap g := by
  induction l with
  | nil => rfl
  | cons a t ih => simp [List.filterMap_cons, h a, ih]

theorem findDeadCode_eq_spec (minimatch : String → String → Bool)
    (nodes : List CodeGraphNode) (rels : List CodeGraphRelationship)
    (pats : List String) :
    findDeadCode minimatch nodes rels pats =
      ((nodes.filter fun n => (n.labels.getD []).contains "Function").filter
        (claimDeadPred minimatch rels pats)).map mkDeadResult := by
  unfold findDeadCode
  have hfun : ∀ node : CodeGraphNode,
      (if node.id ∈ (rels.filter fun rel => rel.type == some "calls").map
          (fun rel => rel.endNode) then none
       else if shouldIgnoreFile minimatch (deadFilePathOf node) pats then none
       else if isEntryPointFile minimatch (deadFilePathOf node) then none
       else if isEntryPointFunction (deadNameOf node) then none
       else if (node.properties.getD {}).exported == some true ∨
               (node.properties.getD {}).isExported == some true then none
       else some (mkDeadResult node)) =
      (if claimDeadPred minimatch rels pats node then some (mkDeadResult node)
       else none) := by
    intro node
    simp only [claimDeadPred, isEntryPointFunction]
    by_cases h1 : (rels.any fun rel => rel.type == some "calls" && rel.endNode == node.id) = true
    · rw [if_pos ((called_mem_iff rels node.id).mpr h1)]
      simp [h1]
    · have h1f : (rels.any fun rel => rel.type == some "calls" && rel.endNode == node.id) = false :=
        eq_false_of_ne_true h1
      rw [if_neg (fun hmem => h1 ((called_mem_iff rels node.id).mp hmem))]
      by_cases h2 : shouldIgnoreFile minimatch (deadFilePathOf node) pats = true
      · rw [if_pos h2]
        simp [h1f, h2]
      · have h2f := eq_false_of_ne_true h2
        rw [if_neg h2]
        by_cases h3 : isEntryPointFile minimatch (deadFilePathOf node) = true
        · rw [if_pos h3]
          simp [h1f, h2f, h3]
        · have h3f := eq_false_of_ne_true h3
          rw [if_neg h3]
          by_cases h4 : (ENTRY_POINT_FUNCTION_NAMES.any fun ep =>
              jsToLower (deadNameOf node) == jsToLower ep) = true
          · rw [if_pos h4]
            simp [h1f, h2f, h3f, h4]
          · have h4f := eq_false_of_ne_true h4
            rw [if_neg h4]
            by_cases h5 : (node.properties.getD {}).exported == some true ∨
                (node.properties.getD {}).isExported == some true
            · rw [if_pos h5]
              have h5b : ((node.properties.getD {}).exported == some true ||
                  (node.properties.getD {}).isExported == some true) = true := by
                rcases h5 with h | h
                · simp [h]
                · simp [h]
              simp [h1f, h2f, h3f, h4f, h5b]
            · rw [if_neg h5]
              have h5b : ((node.properties.getD {}).exported == some true ||
                  (node.properties.getD {}).isExported == some true) = false := by
                rw [Bool.or_eq_false_iff]
                constructor
                · cases hh : (node.properties.getD {}).exported == some true with
                  | false => rfl
                  | true => exact absurd (Or.inl hh) h5
                · cases hh : (node.properties.getD {}).isExported == some true with
                  | false => rfl
                  | true => exact absurd (Or.inr hh) h5
              simp [h1f, h2f, h3f, h4f, h5b]
  exact (filterMap_congr_fun _ _ _ hfun).trans (filterMap_if_eq_filter_map _ _ _)

/-! ### Claim C3 -/

/-- C3: a `Function`-labeled node is reported by `findDeadCode` if and only
if all five conditions of `claimDeadPred` hold — (a) its id is the
`endNode` of no relationship typed exactly `"calls"`, (b) its file path
does not match the ignore filter, (c) its file path does not match the
entry-point file patterns, (d) its name, case-insensitively, is none of
`main, run, start, init, setup, bootstrap, default, handler, GET, POST,
PUT, DELETE, PATCH`, and (e) neither `exported` nor `isExported` marks it
exported: the output is exactly the Function-labeled nodes satisfying the
five conditions, in order, turned into results. -/
theorem claim_C3_findDeadCode (minimatch : String → String → Bool)
    (nodes : List CodeGraphNode) (rels : List CodeGraphRelationship)
    (pats : List String) :
    findDeadCode minimatch nodes rels pats =
      ((nodes.filter fun n => (n.labels.getD []).contains "Function").filter
        (claimDeadPred minimatch rels pats)).map mkDeadResult :=
  findDeadCode_eq_spec minimatch nodes rels pats

/-! ### Claim C7 -/

/-- C7 counterexample: for a `Function` node whose only path-bearing
property is `path`, the cycle analysis' effective path is `"src/x.ts"`
while the reported `DeadCodeResult.filePath` is `""` — `findDeadCode` uses
the shorter chain `filePath || file || ''`, not the claimed
`filePath || path || file || name || id` chain. -/
theorem claim_C7_counterexample :
    (findDeadCode (fun _ _ => false)
        [⟨"f1", some ["Function"], some { path := some "src/x.ts", name := some "g" }⟩]
        [] []).map (fun r => r.filePath) = [""] ∧
    getFilePathFromNode
        ⟨"f1", some ["Function"], some { path := some "src/x.ts", name := some "g" }⟩ =
      "src/x.ts" := by
  decide

theorem headFilter_eq_strOr (l : List (Option String)) (d : String) :
    ((l.filterMap id).filter (fun s => s ≠ "")).headD d =
      l.foldr (fun o acc => strOr o acc) d := by
  induction l with
  | nil => rfl
  | cons o t ih =>
    cases o with
    | none => simpa using ih
    | some s =>
      by_cases hs : s = ""
      · subst hs
        simpa [strOr] using ih
      · simp [strOr, hs]

/-- C7 (amended): in the cycle analysis a node's effective path is the
first non-empty candidate among `filePath`, `path`, `file`, `name`,
falling back to the node id; in the dead-code analysis the `filePath`
field of every result is instead the first non-empty candidate among
`filePath`, `file`, falling back to the empty string. -/
theorem claim_C7_effective_path :
    (∀ node : CodeGraphNode, getFilePathFromNode node = effectivePathSpec node) ∧
    (∀ (minimatch : String → String → Bool) (nodes : List CodeGraphNode)
        (rels : List CodeGraphRelationship) (pats : List String),
      (findDeadCode minimatch nodes rels pats).map (fun r => r.filePath) =
        ((nodes.filter fun n => (n.labels.getD []).contains "Function").filter
          (claimDeadPred minimatch rels pats)).map deadFilePathOf) := by
  constructor
  · intro node
    unfold getFilePathFromNode effectivePathSpec
    rw [headFilter_eq_strOr]
    rfl
  · intro minimatch nodes rels pats
    rw [findDeadCode_eq_spec, List.map_map]
    rfl

/-! ### Claim C5 -/

/-- C5 counterexample: for a fixed graph, the empty pattern list yields
zero cycles but the superset pattern list `["x/index.ts"]` yields one —
ignoring the `File` node `x/index.ts` removes it from the reference set, so
the two previously-merged module references `x` and `x/index` resolve
apart and close a new cycle.  Cycle counting is therefore not monotone in
the ignore patterns. -/
theorem claim_C5_counterexample :
    ([] : List String) ⊆ ["x/index.ts"] ∧
    (findCircularDependencies globMatch
        [⟨"f1", some ["File"], some { filePath := some "z.ts" }⟩,
         ⟨"f2", some ["File"], some { filePath := some "x/index.ts" }⟩,
         ⟨"nx", some ["Other"], some { path := some "x" }⟩,
         ⟨"ny", some ["Other"], some { path := some "x/index" }⟩]
        [⟨"r1", some "imports", "nx", "ny"⟩, ⟨"r2", some "imports", "ny", "nx"⟩]
        []).length = 0 ∧
    (findCircularDependencies globMatch
        [⟨"f1", some ["File"], some { filePath := some "z.ts" }⟩,
         ⟨"f2", some ["File"], some { filePath := some "x/index.ts" }⟩,
         ⟨"nx", some ["Other"], some { path := some "x" }⟩,
         ⟨"ny", some ["Other"], some { path := some "x/index" }⟩]
        [⟨"r1", some "imports", "nx", "ny"⟩, ⟨"r2", some "imports", "ny", "nx"⟩]
        ["x/index.ts"]).length = 1 := by
  refine ⟨by decide, by decide, by decide⟩

theorem length_filter_mono {α : Type} (l : List α) (p q : α → Bool)
    (h : ∀ a, p a = true → q a = true) :
    (l.filter p).length ≤ (l.filter q).length := by
  induction l with
  | nil => simp
  | cons a t ih =>
    by_cases hp : p a = true
    · simp [List.filter_cons, hp, h a hp]
      omega
    · have hpf : p a = false := eq_false_of_ne_true hp
      by_cases hq : q a = true
      · simp [List.filter_cons, hpf, hq]
        omega
      · simp [List.filter_cons, hpf, eq_false_of_ne_true hq]
        exact ih

/-- C5 (amended): ignore filtering is monotonic for the dead-code
analysis — for every graph and every matcher, adding ignore patterns never
increases the number of reported dead-code results.  (The corresponding
statement for cycle counting is refuted by the counterexample.) -/
theorem claim_C5_deadcode_monotone (minimatch : String → String → Bool)
    (nodes : List CodeGraphNode) (rels : List CodeGraphRelationship)
    (pats pats2 : List String) (hsub : pats ⊆ pats2) :
    (findDeadCode minimatch nodes rels pats2).length ≤
      (findDeadCode minimatch nodes rels pats).length := by
  rw [findDeadCode_eq_spec, findDeadCode_eq_spec, List.length_map, List.length_map]
  apply length_filter_mono
  intro node hp
  unfold claimDeadPred at hp ⊢
  simp only [Bool.and_eq_true, Bool.not_eq_true'] at hp ⊢
  obtain ⟨⟨⟨⟨h1, h2⟩, h3⟩, h4⟩, h5⟩ := hp
  refine ⟨⟨⟨⟨h1, ?_⟩, h3⟩, h4⟩, h5⟩
  -- a path ignored under `pats` is ignored under the superset `pats2`
  unfold shouldIgnoreFile at h2 ⊢
  rw [List.any_eq_false] at h2 ⊢
  intro pattern hmem
  apply h2
  rcases List.mem_append.mp hmem with h | h
  · exact List.mem_append.mpr (Or.inl h)
  · exact List.mem_append.mpr (Or.inr (hsub h))

/-- C5 witness: the amended dead-code monotonicity at a concrete graph and
a concrete superset pattern pair. -/
theorem claim_C5_witness :
    (findDeadCode globMatch
        [⟨"f1", some ["Function"], some { name := some "g", filePath := some "src/g.ts" }⟩]
        [] ["src/**"]).length ≤
      (findDeadCode globMatch
        [⟨"f1", some ["Function"], some { name := some "g", filePath := some "src/g.ts" }⟩]
        [] []).length :=
  claim_C5_deadcode_monotone globMatch _ _ [] ["src/**"] (by decide)

/-! ### Claim C9 -/

theorem prRowsGo_length : ∀ (l : List CircularDependencyResult) (i : Nat),
    (prRowsGo i l).length = l.length := by
  intro l
  induction l with
  | nil => intro i; rfl
  | cons c rest ih => intro i; simp [prRowsGo, ih]

theorem prRowsGo_get? : ∀ (l : List CircularDependencyResult) (i j : Nat),
    (prRowsGo i l).get? j = (l.get? j).map (fun c => prRowOf (i + j) c) := by
  intro l
  induction l with
  | nil => intro i j; simp [prRowsGo]
  | cons c rest ih =>
    intro i j
    cases j with
    | zero => simp [prRowsGo]
    | succ k =>
      simp only [prRowsGo, List.get?_cons_succ, ih (i + 1) k]
      have : i + 1 + k = i + (k + 1) := by omega
      rw [this]

/-- C9: on an empty cycle list `formatPrComment` contains the phrase
"No circular dependencies found"; on `N > 0` cycles the table has exactly
`min N 50` rows, row `i` rendering its cycle as the closed path
`cycle[0] -> ... -> cycle[0]`; and the truncation note is appended exactly
when `N > 50` (and the footer always). -/
theorem claim_C9_formatPrComment :
    containsSub (formatPrComment []) "No circular dependencies found" = true ∧
    (∀ cycles : List CircularDependencyResult,
      (prComRows cycles).length = min cycles.length 50) ∧
    (∀ (cycles : List CircularDependencyResult) (i : Nat) (c : CircularDependencyResult),
      cycles.get? i = some c → i < 50 →
      (prComRows cycles).get? i =
        some ("| " ++ toString (i + 1) ++ " | " ++
          joinWith " -> " (c.cycle ++ [c.cycle.headD ""]) ++ " |")) ∧
    (∀ cycles : List CircularDependencyResult, cycles ≠ [] →
      (50 < cycles.length →
        formatPrComment cycles = prMainOf cycles ++ prTruncOf cycles ++ prFooter) ∧
      (cycles.length ≤ 50 → formatPrComment cycles = prMainOf cycles ++ prFooter)) := by
  refine ⟨by decide, ?_, ?_, ?_⟩
  · intro cycles
    rw [prComRows, prRowsGo_length, List.length_take, Nat.min_comm]
  · intro cycles i c hget hi
    rw [prComRows, prRowsGo_get?, List.get?_take hi, hget]
    simp [prRowOf]
  · intro cycles hne
    have hlen : ¬ cycles.length = 0 := by
      simpa [List.length_eq_zero] using hne
    constructor
    · intro h50
      rw [formatPrComment, if_neg hlen, if_pos h50, String.append_assoc]
    · intro h50
      rw [formatPrComment, if_neg hlen, if_neg (by omega)]
      simp

/-- C9 witness: the row shape and the no-truncation decomposition at a
concrete one-cycle list. -/
theorem claim_C9_witness :
    (prComRows [⟨"k", ["a", "b"], 2⟩]).get? 0 =
      some ("| " ++ toString (0 + 1) ++ " | " ++
        joinWith " -> " ((["a", "b"] : List String) ++
          [(["a", "b"] : List String).headD ""]) ++ " |") ∧
    formatPrComment [⟨"k", ["a", "b"], 2⟩] =
      prMainOf [⟨"k", ["a", "b"], 2⟩] ++ prFooter :=
  ⟨claim_C9_formatPrComment.2.2.1 [⟨"k", ["a", "b"], 2⟩] 0 ⟨"k", ["a", "b"], 2⟩
     (by decide) (by decide),
   (claim_C9_formatPrComment.2.2.2 _ (by decide)).2 (by decide)⟩

/-! ### DFS invariants for claims C1 and C10 -/

/-- The result-shape invariant: length at least two, no repeated path,
id equals the joined cycle, and the length field is the cycle length. -/
def GoodRes (r : CircularDependencyResult) : Prop :=
  2 ≤ r.length ∧ r.cycle.Nodup ∧ r.id = joinWith "->" r.cycle ∧
    r.length = r.cycle.length

/-- No adjacency entry contains its own key (self-loops are discarded when
the adjacency map is built). -/
def AdjIrrefl (adj : List (String × List String)) : Prop :=
  ∀ kv ∈ adj, kv.1 ∉ kv.2

/-- The DFS state invariant. -/
def DfsInv (s : DfsState) : Prop :=
  s.onStack = s.stack ∧ s.stack.Nodup ∧ (∀ x ∈ s.stack, x ∈ s.visited) ∧
  s.seenCycles = s.results.map (fun r => r.id) ∧ s.seenCycles.Nodup ∧
  ∀ r ∈ s.results, GoodRes r

theorem adjGet_irrefl (adj : List (String × List String)) (h : AdjIrrefl adj)
    (v : String) : v ∉ adjGet adj v := by
  unfold adjGet
  cases hf : adj.find? (fun kv => kv.1 == v) with
  | none => simp
  | some kv =>
    simp only [Option.map_some', Option.getD_some]
    have hmem := List.mem_of_find?_eq_some hf
    have hp := List.find?_some hf
    have hkv : kv.1 = v := by simpa using hp
    rw [← hkv]
    exact h kv hmem

theorem setAdd_not_mem {l : List String} {x y : String} (hx : x ∉ l) (hxy : x ≠ y) :
    x ∉ setAdd l y := by
  unfold setAdd
  by_cases h : y ∈ l
  · rw [if_pos h]; exact hx
  · rw [if_neg h]
    intro hmem
    rcases List.mem_append.mp hmem with h2 | h2
    · exact hx h2
    · exact hxy (by simpa using h2)

theorem adjAdd_irrefl (m : List (String × List String)) (h : AdjIrrefl m)
    (a e : String) (hne : a ≠ e) : AdjIrrefl (adjAdd m a e) := by
  intro kv hkv
  unfold adjAdd at hkv
  rcases List.mem_map.mp hkv with ⟨kv2, hkv2, heq⟩
  by_cases hk : kv2.1 == a
  · rw [if_pos hk] at heq
    subst heq
    have hk2 : kv2.1 = a := by simpa using hk
    exact setAdd_not_mem (h kv2 hkv2) (hk2 ▸ hne)
  · rw [if_neg hk] at heq
    subst heq
    exact h kv2 hkv2

theorem adjacencyOf_irrefl (minimatch : String → String → Bool)
    (nodes : List CodeGraphNode) (relationships : List CodeGraphRelationship)
    (ignorePatterns : List String) :
    AdjIrrefl (adjacencyOf minimatch nodes relationships ignorePatterns) := by
  unfold adjacencyOf
  have hinit : ∀ (vals : List String) (m : List (String × List String)),
      AdjIrrefl m → AdjIrrefl (vals.foldl (fun m fp =>
        if m.any (fun kv => kv.1 == fp) then m else m ++ [(fp, ([] : List String))]) m) := by
    intro vals
    induction vals with
    | nil => intro m hm; exact hm
    | cons fp rest ih =>
      intro m hm
      simp only [List.foldl_cons]
      apply ih
      by_cases h : m.any (fun kv => kv.1 == fp)
      · rw [if_pos h]; exact hm
      · rw [if_neg h]
        intro kv hkv
        rcases List.mem_append.mp hkv with h2 | h2
        · exact hm kv h2
        · have : kv = (fp, ([] : List String)) := by simpa using h2
          subst this
          simp
  have hedges : ∀ (rels2 : List CodeGraphRelationship)
      (fpById : List (String × String)) (m : List (String × List String)),
      AdjIrrefl m → AdjIrrefl (rels2.foldl (fun m rel =>
        match mapGet fpById rel.startNode, mapGet fpById rel.endNode with
        | some startPath, some endPath =>
          if startPath = "" ∨ endPath = "" then m
          else if startPath = endPath then m
          else adjAdd m startPath endPath
        | _, _ => m) m) := by
    intro rels2 fpById
    induction rels2 with
    | nil => intro m hm; exact hm
    | cons rel rest ih =>
      intro m hm
      simp only [List.foldl_cons]
      apply ih
      cases hs : mapGet fpById rel.startNode with
      | none => simpa [hs] using hm
      | some startPath =>
        cases he : mapGet fpById rel.endNode with
        | none => simpa [hs, he] using hm
        | some endPath =>
          simp only [hs, he]
          by_cases h1 : startPath = "" ∨ endPath = ""
          · rw [if_pos h1]; exact hm
          · rw [if_neg h1]
            by_cases h2 : startPath = endPath
            · rw [if_pos h2]; exact hm
            · rw [if_neg h2]
              exact adjAdd_irrefl m hm startPath endPath h2
  exact hedges _ _ _ (hinit _ _ (fun kv hkv => by simp at hkv))

theorem jsIndexOf_head : ∀ (l : List String) (x : String), x ∈ l →
    ∃ t, l.drop (jsIndexOf l x) = x :: t := by
  intro l
  induction l with
  | nil => intro x hx; simp at hx
  | cons y rest ih =>
    intro x hx
    by_cases h : y = x
    · subst h
      refine ⟨rest, ?_⟩
      simp [jsIndexOf]
    · have hx2 : x ∈ rest := by
        rcases List.mem_cons.mp hx with h2 | h2
        · exact absurd h2.symm h
        · exact h2
      obtain ⟨t, ht⟩ := ih x hx2
      refine ⟨t, ?_⟩
      simpa [jsIndexOf, h] using ht

theorem getLast?_of_suffix {l1 l2 : List String} (h : l1 <:+ l2) (hne : l1 ≠ []) :
    l2.getLast? = l1.getLast? := by
  obtain ⟨t, rfl⟩ := h
  rw [List.getLast?_append]
  have hsome : l1.getLast?.isSome := List.getLast?_isSome.mpr hne
  cases h2 : l1.getLast? with
  | none => rw [h2] at hsome; simp at hsome
  | some a => simp

theorem trimClosing_concat_head {slice : List String} {n : String} {t : List String}
    (hs : slice = n :: t) : trimClosing (slice ++ [n]) = slice := by
  rw [trimClosing, if_pos, List.dropLast_concat]
  constructor
  · rw [hs]
    simp only [List.cons_append, List.length_cons, List.length_append]
    omega
  · rw [List.getLast?_concat, hs]
    rfl

/-- Emitting a back-edge cycle preserves the invariant and touches only
`seenCycles` and `results`. -/
theorem emitCycle_inv (adj : List (String × List String)) (hadj : AdjIrrefl adj)
    (s : DfsState) (v n : String) (hInv : DfsInv s)
    (hlast : s.stack.getLast? = some v) (hn : n ∈ adjGet adj v)
    (hon : n ∈ s.onStack) :
    DfsInv (emitCycle s n) ∧ (emitCycle s n).stack = s.stack ∧
    (emitCycle s n).onStack = s.onStack ∧ (emitCycle s n).visited = s.visited := by
  obtain ⟨hos, hnd, hsv, hseen, hseenNd, hgood⟩ := hInv
  have hmem : n ∈ s.stack := hos ▸ hon
  obtain ⟨t, hslice⟩ := jsIndexOf_head s.stack n hmem
  have hsliceNd : (s.stack.drop (jsIndexOf s.stack n)).Nodup :=
    List.Nodup.sublist (List.drop_sublist _ _) hnd
  have hsne : s.stack.drop (jsIndexOf s.stack n) ≠ [] := by
    rw [hslice]; simp
  have hslast : (s.stack.drop (jsIndexOf s.stack n)).getLast? = some v := by
    rw [← getLast?_of_suffix (List.drop_suffix _ _) hsne]
    exact hlast
  have hnv : n ≠ v := by
    intro h
    exact adjGet_irrefl adj hadj v (h ▸ hn)
  have hlen2 : 2 ≤ (s.stack.drop (jsIndexOf s.stack n)).length := by
    cases ht : t with
    | nil =>
      exfalso
      rw [ht] at hslice
      rw [hslice] at hslast
      simp at hslast
      exact hnv hslast
    | cons b t2 =>
      rw [hslice, ht]
      simp
  have htrim : trimClosing (s.stack.drop (jsIndexOf s.stack n) ++ [n]) =
      s.stack.drop (jsIndexOf s.stack n) := trimClosing_concat_head hslice
  have hperm : (normalizeCycle (s.stack.drop (jsIndexOf s.stack n) ++ [n])).Perm
      (s.stack.drop (jsIndexOf s.stack n)) := by
    have h2 := normalizeCycle_perm_trim (s.stack.drop (jsIndexOf s.stack n) ++ [n])
    rwa [htrim] at h2
  have hgoodNew : GoodRes ⟨joinWith "->"
      (normalizeCycle (s.stack.drop (jsIndexOf s.stack n) ++ [n])),
      normalizeCycle (s.stack.drop (jsIndexOf s.stack n) ++ [n]),
      (normalizeCycle (s.stack.drop (jsIndexOf s.stack n) ++ [n])).length⟩ := by
    refine ⟨?_, ?_, rfl, rfl⟩
    · rw [hperm.length_eq]
      exact hlen2
    · exact (hperm.symm).nodup hsliceNd
  unfold emitCycle
  by_cases hseenK : joinWith "->"
      (normalizeCycle (s.stack.drop (jsIndexOf s.stack n) ++ [n])) ∈ s.seenCycles
  · rw [if_pos hseenK]
    exact ⟨⟨hos, hnd, hsv, hseen, hseenNd, hgood⟩, rfl, rfl, rfl⟩
  · rw [if_neg hseenK]
    refine ⟨⟨hos, hnd, hsv, ?_, ?_, ?_⟩, rfl, rfl, rfl⟩
    · simp only [List.map_append, hseen]
      rfl
    · rw [List.nodup_append]
      refine ⟨hseenNd, List.nodup_singleton _, ?_⟩
      intro a ha hb
      have : a = joinWith "->"
          (normalizeCycle (s.stack.drop (jsIndexOf s.stack n) ++ [n])) := by
        simpa using hb
      subst this
      exact hseenK ha
    · intro r hr
      rcases List.mem_append.mp hr with h2 | h2
      · exact hgood r h2
      · have : r = ⟨joinWith "->"
            (normalizeCycle (s.stack.drop (jsIndexOf s.stack n) ++ [n])),
            normalizeCycle (s.stack.drop (jsIndexOf s.stack n) ++ [n]),
            (normalizeCycle (s.stack.drop (jsIndexOf s.stack n) ++ [n])).length⟩ := by
          simpa using h2
        subst this
        exact hgoodNew

theorem mem_setAdd_of_mem {l : List String} {x y : String} (h : x ∈ l) :
    x ∈ setAdd l y := by
  unfold setAdd
  by_cases hy : y ∈ l
  · rw [if_pos hy]; exact h
  · rw [if_neg hy]; exact List.mem_append.mpr (Or.inl h)

theorem mem_setAdd_self {l : List String} {y : String} : y ∈ setAdd l y := by
  unfold setAdd
  by_cases hy : y ∈ l
  · rw [if_pos hy]; exact hy
  · rw [if_neg hy]; exact List.mem_append.mpr (Or.inr (by simp))

theorem setAdd_eq_append {l : List String} {y : String} (h : y ∉ l) :
    setAdd l y = l ++ [y] := by
  unfold setAdd
  rw [if_neg h]

/-- The central invariant of the DFS: under an irreflexive adjacency
structure, a run preserves `DfsInv`, restores the stack and on-stack set,
and only grows the visited set — where every pending neighbor that is on
the stack is a neighbor of the stack's top element. -/
theorem dfsRun_inv (adj : List (String × List String)) (hadj : AdjIrrefl adj) :
    ∀ (fuel : Nat) (l : List String) (s : DfsState),
      DfsInv s →
      (∀ n ∈ l, n ∈ s.onStack →
        ∃ v, s.stack.getLast? = some v ∧ n ∈ adjGet adj v) →
      DfsInv (dfsRun adj fuel l s) ∧ (dfsRun adj fuel l s).stack = s.stack ∧
        (dfsRun adj fuel l s).onStack = s.onStack ∧
        ∀ x ∈ s.visited, x ∈ (dfsRun adj fuel l s).visited := by
  intro fuel
  induction fuel with
  | zero =>
    intro l s hInv _
    exact ⟨hInv, rfl, rfl, fun x hx => hx⟩
  | succ f ih =>
    intro l s hInv hH
    cases l with
    | nil => exact ⟨hInv, rfl, rfl, fun x hx => hx⟩
    | cons n rest =>
      simp only [dfsRun]
      by_cases hv : n ∈ s.visited
      · rw [if_pos hv]
        by_cases ho : n ∈ s.onStack
        · rw [if_pos ho]
          obtain ⟨v, hlast, hn⟩ := hH n (List.mem_cons_self n rest) ho
          obtain ⟨hI1, hst1, hos1, hvis1⟩ := emitCycle_inv adj hadj s v n hInv hlast hn ho
          have hH1 : ∀ n2 ∈ rest, n2 ∈ (emitCycle s n).onStack →
              ∃ v2, (emitCycle s n).stack.getLast? = some v2 ∧ n2 ∈ adjGet adj v2 := by
            intro n2 hn2 ho2
            rw [hos1] at ho2
            obtain ⟨v2, hl2, ha2⟩ := hH n2 (List.mem_cons_of_mem n hn2) ho2
            exact ⟨v2, by rw [hst1]; exact hl2, ha2⟩
          obtain ⟨hI2, hst2, hos2, hvis2⟩ := ih rest (emitCycle s n) hI1 hH1
          refine ⟨hI2, by rw [hst2, hst1], by rw [hos2, hos1], ?_⟩
          intro x hx
          exact hvis2 x (by rw [hvis1]; exact hx)
        · rw [if_neg ho]
          exact ih rest s hInv (fun n2 hn2 => hH n2 (List.mem_cons_of_mem n hn2))
      · rw [if_neg hv]
        obtain ⟨hos, hnd, hsv, hseen, hseenNd, hgood⟩ := hInv
        have hnstack : n ∉ s.stack := fun h => hv (hsv n h)
        have honst : n ∉ s.onStack := by rw [hos]; exact hnstack
        -- the pushed state
        have hpushStack : (dfsPush s n).stack = s.stack ++ [n] := rfl
        have hpushOn : (dfsPush s n).onStack = s.stack ++ [n] := by
          show setAdd s.onStack n = s.stack ++ [n]
          rw [setAdd_eq_append honst, hos]
        have hInv1 : DfsInv (dfsPush s n) := by
          refine ⟨hpushOn, ?_, ?_, hseen, hseenNd, hgood⟩
          · rw [hpushStack, List.nodup_append]
            refine ⟨hnd, List.nodup_singleton n, ?_⟩
            intro a ha hb
            have : a = n := by simpa using hb
            subst this
            exact hnstack ha
          · intro x hx
            rw [hpushStack] at hx
            show x ∈ setAdd s.visited n
            rcases List.mem_append.mp hx with h2 | h2
            · exact mem_setAdd_of_mem (hsv x h2)
            · have : x = n := by simpa using h2
              subst this
              exact mem_setAdd_self
        have hH1 : ∀ n2 ∈ adjGet adj n, n2 ∈ (dfsPush s n).onStack →
            ∃ v2, (dfsPush s n).stack.getLast? = some v2 ∧ n2 ∈ adjGet adj v2 := by
          intro n2 hn2 _
          refine ⟨n, ?_, hn2⟩
          rw [hpushStack]
          exact List.getLast?_concat _
        obtain ⟨hI2, hst2, hos2, hvis2⟩ := ih (adjGet adj n) (dfsPush s n) hInv1 hH1
        -- the popped state
        have hstack3 : (dfsPop (dfsRun adj f (adjGet adj n) (dfsPush s n)) n).stack
            = s.stack := by
          show (dfsRun adj f (adjGet adj n) (dfsPush s n)).stack.dropLast = s.stack
          rw [hst2, hpushStack, List.dropLast_concat]
        have hon3 : (dfsPop (dfsRun adj f (adjGet adj n) (dfsPush s n)) n).onStack
            = s.onStack := by
          show (dfsRun adj f (adjGet adj n) (dfsPush s n)).onStack.erase n = s.onStack
          rw [hos2, hpushOn, List.erase_append_right _ hnstack, hos]
          simp
        have hvis3 : (dfsPop (dfsRun adj f (adjGet adj n) (dfsPush s n)) n).visited
            = (dfsRun adj f (adjGet adj n) (dfsPush s n)).visited := rfl
        have hInv3 : DfsInv (dfsPop (dfsRun adj f (adjGet adj n) (dfsPush s n)) n) := by
          obtain ⟨-, -, -, hseen2, hseenNd2, hgood2⟩ := hI2
          refine ⟨by rw [hon3, hstack3, hos], by rw [hstack3]; exact hnd, ?_,
            hseen2, hseenNd2, hgood2⟩
          intro x hx
          rw [hstack3] at hx
          rw [hvis3]
          exact hvis2 x (mem_setAdd_of_mem (hsv x hx))
        have hH3 : ∀ n2 ∈ rest,
            n2 ∈ (dfsPop (dfsRun adj f (adjGet adj n) (dfsPush s n)) n).onStack →
            ∃ v2, (dfsPop (dfsRun adj f (adjGet adj n) (dfsPush s n)) n).stack.getLast?
              = some v2 ∧ n2 ∈ adjGet adj v2 := by
          intro n2 hn2 ho2
          rw [hon3] at ho2
          obtain ⟨v2, hl2, ha2⟩ := hH n2 (List.mem_cons_of_mem n hn2) ho2
          exact ⟨v2, by rw [hstack3]; exact hl2, ha2⟩
        obtain ⟨hI4, hst4, hos4, hvis4⟩ :=
          ih rest (dfsPop (dfsRun adj f (adjGet adj n) (dfsPush s n)) n) hInv3 hH3
        refine ⟨hI4, by rw [hst4, hstack3], by rw [hos4, hon3], ?_⟩
        intro x hx
        apply hvis4
        rw [hvis3]
        exact hvis2 x (mem_setAdd_of_mem hx)

theorem runDfs_good (adj : List (String × List String)) (hadj : AdjIrrefl adj) :
    (∀ r ∈ runDfs adj, GoodRes r) ∧
    ((runDfs adj).map (fun r => r.id)).Nodup := by
  unfold runDfs
  have hfold : ∀ (entries : List (String × List String)) (s : DfsState),
      DfsInv s → s.stack = [] →
      DfsInv (entries.foldl (fun s kv =>
        if kv.1 ∈ s.visited then s else dfsRun adj (dfsFuel adj) [kv.1] s) s) ∧
      (entries.foldl (fun s kv =>
        if kv.1 ∈ s.visited then s else dfsRun adj (dfsFuel adj) [kv.1] s) s).stack
        = [] := by
    intro entries
    induction entries with
    | nil => intro s h hs; exact ⟨h, hs⟩
    | cons kv rest ih =>
      intro s h hs
      simp only [List.foldl_cons]
      by_cases hv : kv.1 ∈ s.visited
      · rw [if_pos hv]
        exact ih s h hs
      · rw [if_neg hv]
        have hH : ∀ n ∈ [kv.1], n ∈ s.onStack →
            ∃ v, s.stack.getLast? = some v ∧ n ∈ adjGet adj v := by
          intro n _ hon
          exfalso
          obtain ⟨hos, -⟩ := h
          rw [hos, hs] at hon
          simp at hon
        obtain ⟨hI, hst, -, -⟩ := dfsRun_inv adj hadj (dfsFuel adj) [kv.1] s h hH
        exact ih _ hI (by rw [hst]; exact hs)
  obtain ⟨hI, -⟩ := hfold adj ⟨[], [], [], [], []⟩
    ⟨rfl, by simp, by simp, rfl, by simp, by simp⟩ rfl
  obtain ⟨-, -, -, hseen, hseenNd, hgood⟩ := hI
  exact ⟨hgood, hseen ▸ hseenNd⟩

/-! ### Claims C1 and C10 -/

/-- C1: for every input graph, matcher and ignore-pattern list, every
result of `findCircularDependencies` has `length ≥ 2` and a cycle with no
repeated path — in particular a self-loop (an edge whose resolved start
path equals its resolved end path) never produces a 1-element cycle, since
such edges never enter the adjacency structure at all. -/
theorem claim_C1_cycle_shape (minimatch : String → String → Bool)
    (nodes : List CodeGraphNode) (relationships : List CodeGraphRelationship)
    (ignorePatterns : List String) (r : CircularDependencyResult)
    (hr : r ∈ findCircularDependencies minimatch nodes relationships ignorePatterns) :
    2 ≤ r.length ∧ r.cycle.Nodup := by
  have hg := (runDfs_good _
    (adjacencyOf_irrefl minimatch nodes relationships ignorePatterns)).1 r hr
  exact ⟨hg.1, hg.2.1⟩

/-- C1 witness: the shape theorem applied to the concrete result of a
two-file import cycle. -/
theorem claim_C1_witness :
    2 ≤ (⟨"a.ts->b.ts", ["a.ts", "b.ts"], 2⟩ : CircularDependencyResult).length ∧
    (⟨"a.ts->b.ts", ["a.ts", "b.ts"], 2⟩ : CircularDependencyResult).cycle.Nodup :=
  claim_C1_cycle_shape (fun _ _ => false)
    [⟨"a", some ["File"], some { filePath := some "a.ts" }⟩,
     ⟨"b", some ["File"], some { filePath := some "b.ts" }⟩]
    [⟨"r1", some "imports", "a", "b"⟩, ⟨"r2", some "imports", "b", "a"⟩] []
    ⟨"a.ts->b.ts", ["a.ts", "b.ts"], 2⟩ (by decide)

/-- C10: every result of `findCircularDependencies` has `id` equal to its
cycle joined by `"->"` and `length` equal to the number of cycle elements,
and the ids of the returned results are pairwise distinct (the seen-cycle
set deduplicates canonical keys). -/
theorem claim_C10_result_ids (minimatch : String → String → Bool)
    (nodes : List CodeGraphNode) (relationships : List CodeGraphRelationship)
    (ignorePatterns : List String) :
    (∀ r ∈ findCircularDependencies minimatch nodes relationships ignorePatterns,
      r.id = joinWith "->" r.cycle ∧ r.length = r.cycle.length) ∧
    ((findCircularDependencies minimatch nodes relationships ignorePatterns).map
      (fun r => r.id)).Nodup := by
  obtain ⟨hgood, hnd⟩ := runDfs_good _
    (adjacencyOf_irrefl minimatch nodes relationships ignorePatterns)
  exact ⟨fun r hr => ⟨(hgood r hr).2.2.1, (hgood r hr).2.2.2⟩, hnd⟩

/-- C10 witness: the id/length/distinctness theorem at the two-file import
cycle. -/
theorem claim_C10_witness :
    ((⟨"a.ts->b.ts", ["a.ts", "b.ts"], 2⟩ : CircularDependencyResult).id =
        joinWith "->" (⟨"a.ts->b.ts", ["a.ts", "b.ts"], 2⟩ :
          CircularDependencyResult).cycle ∧
      (⟨"a.ts->b.ts", ["a.ts", "b.ts"], 2⟩ : CircularDependencyResult).length =
        (⟨"a.ts->b.ts", ["a.ts", "b.ts"], 2⟩ :
          CircularDependencyResult).cycle.length) ∧
    ((findCircularDependencies (fun _ _ => false)
        [⟨"a", some ["File"], some { filePath := some "a.ts" }⟩,
         ⟨"b", some ["File"], some { filePath := some "b.ts" }⟩]
        [⟨"r1", some "imports", "a", "b"⟩, ⟨"r2", some "imports", "b", "a"⟩]
        []).map (fun r => r.id)).Nodup :=
  ⟨(claim_C10_result_ids (fun _ _ => false)
      [⟨"a", some ["File"], some { filePath := some "a.ts" }⟩,
       ⟨"b", some ["File"], some { filePath := some "b.ts" }⟩]
      [⟨"r1", some "imports", "a", "b"⟩, ⟨"r2", some "imports", "b", "a"⟩]
      []).1 ⟨"a.ts->b.ts", ["a.ts", "b.ts"], 2⟩ (by decide),
   (claim_C10_result_ids (fun _ _ => false)
      [⟨"a", some ["File"], some { filePath := some "a.ts" }⟩,
       ⟨"b", some ["File"], some { filePath := some "b.ts" }⟩]
      [⟨"r1", some "imports", "a", "b"⟩, ⟨"r2", some "imports", "b", "a"⟩]
      []).2⟩

/-! ### Claim C8 -/

theorem dfsRun_nil (adj : List (String × List String)) :
    ∀ (fuel : Nat) (s : DfsState), dfsRun adj fuel [] s = s := by
  intro fuel s
  cases fuel with
  | zero => rfl
  | succ f => rfl

theorem adjGet_empty (adj : List (String × List String))
    (h : ∀ kv ∈ adj, kv.2 = []) (v : String) : adjGet adj v = [] := by
  unfold adjGet
  cases hf : adj.find? (fun kv => kv.1 == v) with
  | none => rfl
  | some kv =>
    simp only [Option.map_some', Option.getD_some]
    exact h kv (List.mem_of_find?_eq_some hf)

theorem runDfs_no_edges (adj : List (String × List String))
    (h : ∀ kv ∈ adj, kv.2 = []) : runDfs adj = [] := by
  unfold runDfs
  have hfold : ∀ (entries : List (String × List String)) (s : DfsState),
      s.results = [] → s.stack = [] → s.onStack = [] →
      ((entries.foldl (fun s kv =>
        if kv.1 ∈ s.visited then s else dfsRun adj (dfsFuel adj) [kv.1] s) s).results
        = [] ∧
       (entries.foldl (fun s kv =>
        if kv.1 ∈ s.visited then s else dfsRun adj (dfsFuel adj) [kv.1] s) s).stack
        = [] ∧
       (entries.foldl (fun s kv =>
        if kv.1 ∈ s.visited then s else dfsRun adj (dfsFuel adj) [kv.1] s) s).onStack
        = []) := by
    intro entries
    induction entries with
    | nil => intro s h1 h2 h3; exact ⟨h1, h2, h3⟩
    | cons kv rest ih =>
      intro s h1 h2 h3
      simp only [List.foldl_cons]
      by_cases hv : kv.1 ∈ s.visited
      · rw [if_pos hv]
        exact ih s h1 h2 h3
      · rw [if_neg hv]
        have honst : kv.1 ∉ s.onStack := by rw [h3]; simp
        have hstep : dfsRun adj (dfsFuel adj) [kv.1] s =
            dfsPop (dfsPush s kv.1) kv.1 := by
          show dfsRun adj (dfsFuel adj) (kv.1 :: []) s = _
          have hfuel : dfsFuel adj = (dfsFuel adj - 1) + 1 := by
            unfold dfsFuel
            omega
          rw [hfuel]
          simp only [dfsRun, if_neg hv]
          rw [adjGet_empty adj h, dfsRun_nil]
        rw [hstep]
        apply ih
        · exact h1
        · show ((dfsPush s kv.1).stack).dropLast = []
          show (s.stack ++ [kv.1]).dropLast = []
          rw [List.dropLast_concat, h2]
        · show ((dfsPush s kv.1).onStack).erase kv.1 = []
          show (setAdd s.onStack kv.1).erase kv.1 = []
          rw [setAdd_eq_append honst, h3]
          simp
  exact (hfold adj ⟨[], [], [], [], []⟩ rfl rfl rfl).1

theorem adjacencyOf_no_rels (minimatch : String → String → Bool)
    (nodes : List CodeGraphNode) (pats : List String) :
    ∀ kv ∈ adjacencyOf minimatch nodes [] pats, kv.2 = [] := by
  unfold adjacencyOf
  simp only [List.filter_nil, List.foldl_nil]
  have hinit : ∀ (vals : List String) (m : List (String × List String)),
      (∀ kv ∈ m, kv.2 = []) →
      ∀ kv ∈ (vals.foldl (fun m fp =>
        if m.any (fun kv => kv.1 == fp) then m else m ++ [(fp, ([] : List String))]) m),
        kv.2 = [] := by
    intro vals
    induction vals with
    | nil => intro m hm; exact hm
    | cons fp rest ih =>
      intro m hm
      simp only [List.foldl_cons]
      apply ih
      by_cases h2 : m.any (fun kv => kv.1 == fp)
      · rw [if_pos h2]; exact hm
      · rw [if_neg h2]
        intro kv hkv
        rcases List.mem_append.mp hkv with h3 | h3
        · exact hm kv h3
        · have : kv = (fp, ([] : List String)) := by simpa using h3
          subst this
          rfl
  exact hinit _ [] (fun kv hkv => by simp at hkv)

/-- C8: the analyses are total and degrade gracefully — an empty graph
yields empty results from both analyses; a graph with zero relationships
yields zero cycles; a node with no properties falls back to its id as
effective path; a node with no labels is excluded from dead-code analysis;
failed path resolution falls back to the raw normalized value; and a
`Function` node with no properties is reported with the defaults
`"anonymous"` and the empty file path rather than failing. -/
theorem claim_C8_total_graceful :
    (∀ (minimatch : String → String → Bool) (pats : List String),
      findCircularDependencies minimatch [] [] pats = [] ∧
      findDeadCode minimatch [] [] pats = []) ∧
    (∀ (minimatch : String → String → Bool) (nodes : List CodeGraphNode)
        (pats : List String),
      findCircularDependencies minimatch nodes [] pats = []) ∧
    (∀ (i : String) (ls : Option (List String)),
      getFilePathFromNode ⟨i, ls, none⟩ = i) ∧
    (∀ (minimatch : String → String → Bool) (rels : List CodeGraphRelationship)
        (pats : List String) (i : String) (props : Option NodeProps),
      findDeadCode minimatch [⟨i, none, props⟩] rels pats = []) ∧
    (∀ (candidate : String) (refs : List String),
      resolveFilePath candidate refs = none →
      (resolveFilePath candidate refs).getD (normalizePath candidate) =
        normalizePath candidate) ∧
    (findDeadCode (fun _ _ => false) [⟨"f", some ["Function"], none⟩] [] [] =
      [⟨"f", "anonymous", "", none, none⟩]) := by
  refine ⟨?_, ?_, ?_, ?_, ?_, by decide⟩
  · intro minimatch pats
    exact ⟨rfl, rfl⟩
  · intro minimatch nodes pats
    exact runDfs_no_edges _ (adjacencyOf_no_rels minimatch nodes pats)
  · intro i ls
    rfl
  · intro minimatch rels pats i props
    rfl
  · intro candidate refs h
    rw [h]
    rfl

/-- C8 witness: the resolution-fallback conjunct at a concrete unresolvable
candidate. -/
theorem claim_C8_witness :
    (resolveFilePath "nope" []).getD (normalizePath "nope") = normalizePath "nope" :=
  claim_C8_total_graceful.2.2.2.2.1 "nope" [] (by decide)

/-! ### Adequacy of the DFS fuel

The fuel in `dfsRun` is an artifact of the embedding: the following lemmas
prove that any fuel of at least `dfsFuel adj` produces the same run, so the
embedded DFS coincides with the unbounded JS recursion. -/

/-- Every node name occurring in the adjacency structure (each key and each
neighbor), once. -/
def dfsUniverse (adj : List (String × List String)) : List String :=
  ((adj.map (fun kv => kv.1)) ++ (adj.map (fun kv => kv.2)).flatten).dedup

/-- The recursion budget one unvisited node can still consume: its descent
plus one step per neighbor. -/
def nodeWeight (adj : List (String × List String)) (u : String) : Nat :=
  1 + (adjGet adj u).length

/-- The total budget of the still-unvisited universe. -/
def dfsWeight (adj : List (String × List String)) (s : DfsState) : Nat :=
  (((dfsUniverse adj).filter (fun u => decide (u ∉ s.visited))).map
    (nodeWeight adj)).sum

theorem sum_map_filter_le (l : List String) (p : String → Bool) (f : String → Nat) :
    ((l.filter p).map f).sum ≤ (l.map f).sum := by
  induction l with
  | nil => simp
  | cons a t ih =>
    by_cases h : p a
    · simp only [List.filter_cons, h, if_pos, List.map_cons, List.sum_cons]
      omega
    · simp only [List.filter_cons, List.map_cons, List.sum_cons]
      rw [if_neg h]
      omega

theorem sum_map_filter_mono (l : List String) (p q : String → Bool) (f : String → Nat)
    (h : ∀ u, p u = true → q u = true) :
    ((l.filter p).map f).sum ≤ ((l.filter q).map f).sum := by
  induction l with
  | nil => simp
  | cons a t ih =>
    by_cases hp : p a = true
    · simp only [List.filter_cons, hp, if_pos, h a hp, List.map_cons, List.sum_cons]
      omega
    · by_cases hq : q a = true
      · simp only [List.filter_cons, hq, if_pos, List.map_cons, List.sum_cons]
        rw [if_neg hp]
        omega
      · simp only [List.filter_cons]
        rw [if_neg hp, if_neg hq]
        exact ih

theorem sum_remove_one (l : List String) (n : String) (p q : String → Bool)
    (f : String → Nat) (hn : n ∈ l) (hp : p n = true)
    (hq : ∀ u, q u = (p u && !(u == n))) :
    ((l.filter q).map f).sum + f n ≤ ((l.filter p).map f).sum := by
  have himp : ∀ u, q u = true → p u = true := by
    intro u hu
    rw [hq u] at hu
    cases hpu : p u with
    | true => rfl
    | false => rw [hpu] at hu; simp at hu
  induction l with
  | nil => simp at hn
  | cons a t ih =>
    by_cases ha : a = n
    · subst ha
      simp only [List.filter_cons]
      rw [if_neg (by rw [hq a]; simp), if_pos hp]
      simp only [List.map_cons, List.sum_cons]
      have h2 := sum_map_filter_mono t q p f himp
      omega
    · have hn2 : n ∈ t := by
        rcases List.mem_cons.mp hn with h2 | h2
        · exact absurd h2.symm ha
        · exact h2
      by_cases hpa : p a = true
      · have hcond : q a = true := by
          rw [hq a, hpa]
          simp [ha]
        simp only [List.filter_cons]
        rw [if_pos hcond, if_pos hpa]
        simp only [List.map_cons, List.sum_cons]
        have := ih hn2
        omega
      · simp only [List.filter_cons]
        rw [if_neg (fun hcon => hpa (himp a hcon)), if_neg hpa]
        exact ih hn2

theorem dfsWeight_le_init (adj : List (String × List String)) (s : DfsState) :
    dfsWeight adj s ≤ ((dfsUniverse adj).map (nodeWeight adj)).sum :=
  sum_map_filter_le _ _ _

theorem dfsWeight_mono (adj : List (String × List String)) (s s2 : DfsState)
    (h : ∀ x ∈ s.visited, x ∈ s2.visited) :
    dfsWeight adj s2 ≤ dfsWeight adj s := by
  apply sum_map_filter_mono
  intro u hu
  have h2 : u ∉ s2.visited := by simpa using hu
  have h3 : u ∉ s.visited := fun hx => h2 (h u hx)
  simpa using h3

theorem dfsWeight_push (adj : List (String × List String)) (s : DfsState)
    (n : String) (hUn : n ∈ dfsUniverse adj) (hv : n ∉ s.visited)
    (s2 : DfsState) (h : ∀ x ∈ setAdd s.visited n, x ∈ s2.visited) :
    dfsWeight adj s2 + nodeWeight adj n ≤ dfsWeight adj s := by
  have hstep : dfsWeight adj s2 ≤
      (((dfsUniverse adj).filter (fun u => decide (u ∉ s.visited) && !(u == n))).map
        (nodeWeight adj)).sum := by
    apply sum_map_filter_mono
    intro u hu
    have h2 : u ∉ s2.visited := by simpa using hu
    have h3 : u ∉ setAdd s.visited n := fun hx => h2 (h u hx)
    have h4 : u ∉ s.visited := fun hx => h3 (mem_setAdd_of_mem hx)
    have h5 : u ≠ n := by
      intro hx
      subst hx
      exact h3 mem_setAdd_self
    simp [h4, h5]
  have hrem := sum_remove_one (dfsUniverse adj) n
    (fun u => decide (u ∉ s.visited))
    (fun u => decide (u ∉ s.visited) && !(u == n)) (nodeWeight adj) hUn
    (by simpa using hv) (fun u => rfl)
  unfold dfsWeight at hstep ⊢
  omega

theorem emitCycle_visited (s : DfsState) (n : String) :
    (emitCycle s n).visited = s.visited := by
  unfold emitCycle
  by_cases h : joinWith "->" (normalizeCycle (s.stack.drop (jsIndexOf s.stack n) ++ [n]))
      ∈ s.seenCycles
  · rw [if_pos h]
  · rw [if_neg h]

theorem dfsRun_visited_mono (adj : List (String × List String)) :
    ∀ (fuel : Nat) (l : List String) (s : DfsState),
      ∀ x ∈ s.visited, x ∈ (dfsRun adj fuel l s).visited := by
  intro fuel
  induction fuel with
  | zero => intro l s x hx; exact hx
  | succ f ih =>
    intro l s x hx
    cases l with
    | nil => exact hx
    | cons n rest =>
      simp only [dfsRun]
      by_cases hv : n ∈ s.visited
      · rw [if_pos hv]
        by_cases ho : n ∈ s.onStack
        · rw [if_pos ho]
          exact ih rest (emitCycle s n) x (by rw [emitCycle_visited]; exact hx)
        · rw [if_neg ho]
          exact ih rest s x hx
      · rw [if_neg hv]
        apply ih rest
        show x ∈ (dfsRun adj f (adjGet adj n) (dfsPush s n)).visited
        apply ih (adjGet adj n) (dfsPush s n) x
        exact mem_setAdd_of_mem hx

theorem mem_adjGet_universe (adj : List (String × List String)) (v m : String)
    (h : m ∈ adjGet adj v) : m ∈ dfsUniverse adj := by
  unfold adjGet at h
  cases hf : adj.find? (fun kv => kv.1 == v) with
  | none => rw [hf] at h; simp at h
  | some kv =>
    rw [hf] at h
    simp only [Option.map_some', Option.getD_some] at h
    unfold dfsUniverse
    rw [List.mem_dedup]
    apply List.mem_append.mpr
    right
    rw [List.mem_flatten]
    exact ⟨kv.2, List.mem_map.mpr ⟨kv, List.mem_of_find?_eq_some hf, rfl⟩, h⟩

theorem key_mem_universe (adj : List (String × List String)) (kv : String × List String)
    (h : kv ∈ adj) : kv.1 ∈ dfsUniverse adj := by
  unfold dfsUniverse
  rw [List.mem_dedup]
  apply List.mem_append.mpr
  left
  exact List.mem_map.mpr ⟨kv, h, rfl⟩

/-- One-step fuel stability: when the fuel is at least the pending worklist
length plus the budget of the unvisited universe, one more unit of fuel
changes nothing. -/
theorem dfsRun_fuel_succ (adj : List (String × List String)) :
    ∀ (f : Nat) (l : List String) (s : DfsState),
      (∀ n ∈ l, n ∈ dfsUniverse adj) →
      l.length + dfsWeight adj s ≤ f →
      dfsRun adj f l s = dfsRun adj (f + 1) l s := by
  intro f
  induction f with
  | zero =>
    intro l s hU hmu
    have hl : l = [] := by
      cases l with
      | nil => rfl
      | cons a t => simp at hmu
    subst hl
    rfl
  | succ f ih =>
    intro l s hU hmu
    cases l with
    | nil => rfl
    | cons n rest =>
      have hUn : n ∈ dfsUniverse adj := hU n (List.mem_cons_self n rest)
      have hUrest : ∀ m ∈ rest, m ∈ dfsUniverse adj :=
        fun m hm => hU m (List.mem_cons_of_mem n hm)
      have hlen : (n :: rest).length = rest.length + 1 := by simp
      simp only [dfsRun]
      by_cases hv : n ∈ s.visited
      · rw [if_pos hv, if_pos hv]
        by_cases ho : n ∈ s.onStack
        · rw [if_pos ho, if_pos ho]
          apply ih rest (emitCycle s n) hUrest
          have hw : dfsWeight adj (emitCycle s n) = dfsWeight adj s := by
            unfold dfsWeight
            rw [emitCycle_visited]
          rw [hw]
          omega
        · rw [if_neg ho, if_neg ho]
          apply ih rest s hUrest
          omega
      · rw [if_neg hv, if_neg hv]
        have hwpush := dfsWeight_push adj s n hUn hv (dfsPush s n)
          (fun x hx => hx)
        have hinner : dfsRun adj f (adjGet adj n) (dfsPush s n) =
            dfsRun adj (f + 1) (adjGet adj n) (dfsPush s n) := by
          apply ih (adjGet adj n) (dfsPush s n)
            (fun m hm => mem_adjGet_universe adj n m hm)
          unfold nodeWeight at hwpush
          omega
        rw [← hinner]
        apply ih rest _ hUrest
        have hvis3 : ∀ x ∈ setAdd s.visited n,
            x ∈ (dfsPop (dfsRun adj f (adjGet adj n) (dfsPush s n)) n).visited := by
          intro x hx
          show x ∈ (dfsRun adj f (adjGet adj n) (dfsPush s n)).visited
          exact dfsRun_visited_mono adj f (adjGet adj n) (dfsPush s n) x hx
        have hw3 := dfsWeight_push adj s n hUn hv
          (dfsPop (dfsRun adj f (adjGet adj n) (dfsPush s n)) n) hvis3
        unfold nodeWeight at hw3
        omega

/-- Full fuel stability: any two fuels at least the current budget give the
same run. -/
theorem dfsRun_fuel_ge (adj : List (String × List String))
    (f g : Nat) (l : List String) (s : DfsState)
    (hU : ∀ n ∈ l, n ∈ dfsUniverse adj)
    (hmu : l.length + dfsWeight adj s ≤ f) (hfg : f ≤ g) :
    dfsRun adj f l s = dfsRun adj g l s := by
  induction g, hfg using Nat.le_induction with
  | base => rfl
  | succ g hfg ihg =>
    rw [ihg]
    exact dfsRun_fuel_succ adj g l s hU (le_trans hmu hfg)

theorem sum_map_one_add : ∀ (l : List String) (f : String → Nat),
    (l.map (fun u => 1 + f u)).sum = l.length + (l.map f).sum := by
  intro l f
  induction l with
  | nil => rfl
  | cons a t ih =>
    simp only [List.map_cons, List.sum_cons, List.length_cons, ih]
    omega

theorem adjGet_cons (kv : String × List String) (adj : List (String × List String))
    (u : String) :
    adjGet (kv :: adj) u = if kv.1 == u then kv.2 else adjGet adj u := by
  unfold adjGet
  rw [List.find?_cons]
  cases h : (kv.1 == u) with
  | true => simp [h]
  | false => simp [h]

theorem sum_adjGet_le : ∀ (adj : List (String × List String)) (U : List String),
    U.Nodup →
    (U.map (fun u => (adjGet adj u).length)).sum ≤
      (adj.map (fun kv => kv.2.length)).sum := by
  intro adj
  induction adj with
  | nil =>
    intro U _
    have : ∀ u ∈ U, (adjGet [] u).length = 0 := by
      intro u _
      rfl
    calc (U.map (fun u => (adjGet [] u).length)).sum
        = (U.map (fun _ => 0)).sum := by
          rw [List.map_congr_left this]
      _ ≤ 0 := by simp
  | cons kv adj2 ih =>
    intro U hU
    by_cases hk : kv.1 ∈ U
    · have hperm := List.perm_cons_erase hk
      have hsum : (U.map (fun u => (adjGet (kv :: adj2) u).length)).sum =
          ((kv.1 :: U.erase kv.1).map
            (fun u => (adjGet (kv :: adj2) u).length)).sum :=
        (hperm.map _).sum_eq
      rw [hsum]
      simp only [List.map_cons, List.sum_cons]
      have hself : (adjGet (kv :: adj2) kv.1).length = kv.2.length := by
        rw [adjGet_cons]
        rw [if_pos (by simp)]
      have hrest : ((U.erase kv.1).map
          (fun u => (adjGet (kv :: adj2) u).length)).sum =
          ((U.erase kv.1).map (fun u => (adjGet adj2 u).length)).sum := by
        congr 1
        apply List.map_congr_left
        intro u hu
        have hne : kv.1 ≠ u := by
          intro h
          have h2 : u ∈ U.erase u := h ▸ hu
          exact hU.not_mem_erase h2
        rw [adjGet_cons, if_neg (by simpa using hne)]
      rw [hself, hrest]
      have := ih (U.erase kv.1) (hU.erase kv.1)
      omega
    · have hrest : (U.map (fun u => (adjGet (kv :: adj2) u).length)).sum =
          (U.map (fun u => (adjGet adj2 u).length)).sum := by
        congr 1
        apply List.map_congr_left
        intro u hu
        have hne : kv.1 ≠ u := fun h => hk (h ▸ hu)
        rw [adjGet_cons, if_neg (by simpa using hne)]
      rw [hrest]
      have := ih U hU
      simp only [List.map_cons, List.sum_cons]
      omega

theorem dfsFuel_eq (adj : List (String × List String)) :
    dfsFuel adj = adj.length + 2 * (adj.map (fun kv => kv.2.length)).sum + 2 := by
  unfold dfsFuel
  have hfold : ∀ (l : List (String × List String)) (a : Nat),
      l.foldl (fun acc kv => acc + 2 * kv.2.length) a =
        a + 2 * (l.map (fun kv => kv.2.length)).sum := by
    intro l
    induction l with
    | nil => intro a; simp
    | cons kv t ih =>
      intro a
      simp only [List.foldl_cons, List.map_cons, List.sum_cons, ih]
      omega
  rw [hfold]
  omega

theorem universe_length_le (adj : List (String × List String)) :
    (dfsUniverse adj).length ≤
      adj.length + (adj.map (fun kv => kv.2.length)).sum := by
  unfold dfsUniverse
  calc (((adj.map (fun kv => kv.1)) ++ (adj.map (fun kv => kv.2)).flatten).dedup).length
      ≤ ((adj.map (fun kv => kv.1)) ++ (adj.map (fun kv => kv.2)).flatten).length :=
        (List.dedup_sublist _).length_le
    _ = adj.length + (adj.map (fun kv => kv.2.length)).sum := by
        rw [List.length_append, List.length_map, List.length_flatten, List.map_map]
        rfl

theorem budget_le_dfsFuel (adj : List (String × List String)) (s : DfsState) :
    1 + dfsWeight adj s ≤ dfsFuel adj := by
  have h1 := dfsWeight_le_init adj s
  have h2 : ((dfsUniverse adj).map (nodeWeight adj)).sum =
      (dfsUniverse adj).length +
        ((dfsUniverse adj).map (fun u => (adjGet adj u).length)).sum := by
    unfold nodeWeight
    exact sum_map_one_add _ _
  have h3 := sum_adjGet_le adj (dfsUniverse adj) (List.nodup_dedup _)
  have h4 := universe_length_le adj
  have h5 := dfsFuel_eq adj
  omega

theorem foldl_congr_mem {α β : Type} (l : List β) (f g : α → β → α)
    (h : ∀ (a : α), ∀ b ∈ l, f a b = g a b) :
    ∀ a, l.foldl f a = l.foldl g a := by
  induction l with
  | nil => intro a; rfl
  | cons b t ih =>
    intro a
    simp only [List.foldl_cons]
    rw [h a b (List.mem_cons_self b t)]
    exact ih (fun a2 b2 hb2 => h a2 b2 (List.mem_cons_of_mem b hb2)) (g a b)

/-- The fuel used by `runDfs` is an inert artifact of the embedding: any
fuel of at least `dfsFuel adj` produces the identical run, so the fueled
DFS computes exactly what the unbounded JS recursion computes. -/
theorem runDfs_fuel_irrelevant (adj : List (String × List String)) (g : Nat)
    (hg : dfsFuel adj ≤ g) :
    (adj.foldl (fun s kv =>
        if kv.1 ∈ s.visited then s else dfsRun adj g [kv.1] s)
      ⟨[], [], [], [], []⟩).results = runDfs adj := by
  unfold runDfs
  congr 1
  apply foldl_congr_mem
  intro s kv hkv
  by_cases hv : kv.1 ∈ s.visited
  · rw [if_pos hv, if_pos hv]
  · rw [if_neg hv, if_neg hv]
    have hU : ∀ n ∈ [kv.1], n ∈ dfsUniverse adj := by
      intro n hn
      have : n = kv.1 := by simpa using hn
      subst this
      exact key_mem_universe adj kv hkv
    have hmu : ([kv.1] : List String).length + dfsWeight adj s ≤ dfsFuel adj := by
      have := budget_le_dfsFuel adj s
      simpa using this
    exact (dfsRun_fuel_ge adj (dfsFuel adj) g [kv.1] s hU hmu hg).symm
